import Mathlib

/-!
# Verification of the muscato read/target matching engine

Shallow embedding of the muscato pipeline components that the verified
claims refer to, translated from the Go sources:

* `cmd/muscato_confirm/main.go` — candidate verifier (`cdiff`,
  `searchpairs`, `qinsert`, the `breader` block reader);
* `cmd/muscato_screen/main.go` — target scanner (`processSeq` emission,
  `harvest` record rendering);
* `cmd/muscato_combine_windows/main.go` — cross-window consolidator
  (`writebest` and the per-read grouping loop);
* `muscato_window_reads/muscato_window_reads.go` — windowed read stream;
* `muscato/muscato.go` (`prepReads`) and
  `muscato_uniqify/muscato_uniqify.go` — read dedup and counters;
* `utils/entropy.go` — the dinucleotide entropy gate.

Byte strings are modelled as `List Nat` (one `Nat` per byte).
Fallible operations (Go slice-bounds panics, `strconv.Atoi` failures,
fatal log exits) are modelled with `Option`/`Except`.
-/

/-- Go slice expression `s[lo:hi]` over a byte string, with Go's bounds
rule: the slice is defined iff `0 ≤ lo ≤ hi ≤ len s`, otherwise the
program panics (modelled as `none`). -/
def gslice (s : List Nat) (lo hi : ℤ) : Option (List Nat) :=
  if 0 ≤ lo ∧ lo ≤ hi ∧ hi ≤ (s.length : ℤ) then
    some ((s.drop lo.toNat).take (hi - lo).toNat)
  else
    none

/-- Digit-extraction loop for `itoa`, structurally recursive on a fuel
bound (`n < fuel` at every call, so the fuel never runs out). -/
def itoaCore : Nat → Nat → List Nat
  | 0, _ => []
  | fuel + 1, n =>
    if n < 10 then [48 + n]
    else itoaCore fuel (n / 10) ++ [48 + n % 10]

/-- Decimal digits of `n`, most significant first, as ASCII bytes;
models Go `strconv.Itoa` for a nonnegative int. -/
def itoa (n : Nat) : List Nat := itoaCore (n + 1) n

/-- Go `fmt.Sprintf` with verb `%011d` on a nonnegative int: the decimal
digits, left-padded with ASCII zeros to a minimum width of 11. -/
def sprintf011 (n : Nat) : List Nat :=
  List.replicate (11 - (itoa n).length) 48 ++ itoa n

/-- Base map of `utils.CountDinuc`: A→0, T→1, G→2, C→3, other→4. -/
def baseCode (x : Nat) : Nat :=
  if x = 65 then 0
  else if x = 84 then 1
  else if x = 71 then 2
  else if x = 67 then 3
  else 4

/-- Inner loop of `utils.CountDinuc`: walk the remaining bytes carrying
the previous base code and the set of dinucleotide cells already seen
(the cells `k` with `wk[k] ≠ 0`); count cells seen for the first time. -/
def countDinucLoop (seen : List Nat) (last n : Nat) : List Nat → Nat
  | [] => n
  | x :: rest =>
    let v := baseCode x
    let k := 5 * last + v
    if k ∈ seen then countDinucLoop seen v n rest
    else countDinucLoop (k :: seen) v (n + 1) rest

/-- `utils.CountDinuc`: number of distinct ordered dinucleotides in a
byte window (the entropy gate's score). -/
def countDinuc : List Nat → Nat
  | [] => 0
  | x :: rest => countDinucLoop [] (baseCode x) 0 rest

/-- `cdiff` from `cmd/muscato_confirm/main.go`: the number of positions
`i < len x` with `x[i] ≠ y[i]`.  The Go loop indexes `y` at every index
of `x`, so it panics (here: `none`) when `y` is shorter than `x`. -/
def cdiff : List Nat → List Nat → Option Nat
  | [], _ => some 0
  | _ :: _, [] => none
  | x :: xs, y :: ys =>
    (cdiff xs ys).map fun c => (if x ≠ y then 1 else 0) + c

/-- Hamming distance over the common prefix of two byte strings (the
number of differing positions among the first `min len` positions). -/
def ham (x y : List Nat) : Nat :=
  (x.zip y).countP fun p => decide (p.1 ≠ p.2)

/-! ## Candidate verifier (`cmd/muscato_confirm/main.go`) -/

/-- One record of the windowed read stream (`win_*_sorted.txt.sz`), as
read by `searchpairs` from the `source` block: window key, left tail,
right tail. -/
structure SourceRec where
  stag : List Nat
  slft : List Nat
  srgt : List Nat
deriving DecidableEq

/-- One record of the candidate-hit stream (`smatch_*.txt.sz`), as read
by `searchpairs` from the `match` block: window key, left pad, right
pad, gene id field, parsed position. -/
structure MatchRec where
  mtag : List Nat
  mlft : List Nat
  mrgt : List Nat
  mgene : List Nat
  mpos : Nat
deriving DecidableEq

/-- A confirmed-match record as assembled by `searchpairs`:
`slft ∥ stag ∥ srgt`, `mlft ∥ mtag ∥ mrgt[0:mk]`, `mposi − len(mlft)`,
`nx`, gene id. -/
structure ConfirmRec where
  readSeq : List Nat
  targetAligned : List Nat
  targetOffset : ℤ
  nx : Nat
  mgene : List Nat
deriving DecidableEq

/-- Go conversion `int(x)` of a nonnegative-or-negative real quantity:
truncation toward zero.  (`float64` arithmetic is modelled exactly over
`ℚ`.) -/
def goInt (x : ℚ) : ℤ :=
  if 0 ≤ x then Int.floor x else -Int.floor (-x)

/-- The body of the inner pair loop of `searchpairs` for one
(read, candidate) pair: `none` models a panic inside `cdiff`,
`some none` a rejected pair, `some (some c)` an emitted record. -/
def checkPair (pMatch : ℚ) (s : SourceRec) (m : MatchRec) :
    Option (Option ConfirmRec) :=
  if s.srgt.length > m.mrgt.length then some none
  else
    (cdiff m.mlft s.slft).bind fun n1 =>
    (cdiff (m.mrgt.take s.srgt.length) s.srgt).bind fun n2 =>
    if ((n1 + n2 : ℕ) : ℤ) >
        goInt ((1 - pMatch) *
          ((s.stag.length + s.slft.length + s.srgt.length : ℕ) : ℚ)) then
      some none
    else
      some (some ⟨s.slft ++ s.stag ++ s.srgt,
                  m.mlft ++ m.mtag ++ m.mrgt.take s.srgt.length,
                  (m.mpos : ℤ) - m.mlft.length, n1 + n2, m.mgene⟩)

/-- The sift-up loop of `qinsert`: starting from the just-inserted node
at index `ii`, swap with the parent `(ii−1)/2` while the parent has a
strictly larger mismatch count. -/
def siftup (q : List ConfirmRec) (ii : Nat) : List ConfirmRec :=
  if h : ii = 0 then q
  else
    let jj := (ii - 1) / 2
    match q[jj]?, q[ii]? with
    | some a, some b =>
      if a.nx > b.nx then siftup ((q.set jj b).set ii a) jj
      else q
    | _, _ => q
termination_by ii
decreasing_by
  have := Nat.div_le_self (ii - 1) 2
  omega

/-- `qinsert` from `cmd/muscato_confirm/main.go`: append to the
mismatch-ordered heap, sift up, then truncate to `MaxMatches`. -/
def qinsert (maxMatches : Nat) (q : List ConfirmRec) (a : ConfirmRec) :
    List ConfirmRec :=
  let q1 := q ++ [a]
  let q2 := siftup q1 (q1.length - 1)
  if q2.length > maxMatches then q2.take maxMatches else q2

/-- The nested pair loop of `searchpairs` over the flattened Cartesian
product (outer loop over `match`, inner over `source`), carrying the
accumulated `qvals`.  In `first` mode an emission that pushes the
length above `MaxMatches` jumps to the output label with everything
accumulated so far; in `best` mode each emission goes through
`qinsert`.  `none` models a panic. -/
def spLoop (pMatch : ℚ) (maxMatches : Nat) (firstMode : Bool) :
    List (MatchRec × SourceRec) → List ConfirmRec → Option (List ConfirmRec)
  | [], qvals => some qvals
  | (m, s) :: rest, qvals =>
    match checkPair pMatch s m with
    | none => none
    | some none => spLoop pMatch maxMatches firstMode rest qvals
    | some (some c) =>
      if firstMode then
        let q1 := qvals ++ [c]
        if q1.length > maxMatches then some q1
        else spLoop pMatch maxMatches firstMode rest q1
      else spLoop pMatch maxMatches firstMode rest (qinsert maxMatches qvals c)

/-- `searchpairs`: all (read, candidate) pairs of the two blocks are
checked in loop order, and the list of records passed to `rsltChan` is
returned. -/
def searchpairs (pMatch : ℚ) (maxMatches : Nat) (firstMode : Bool)
    (source : List SourceRec) (matchRecs : List MatchRec) :
    Option (List ConfirmRec) :=
  spLoop pMatch maxMatches firstMode
    (matchRecs.flatMap fun m => source.map fun s => (m, s)) []

/-! ## The `breader` block reader (`cmd/muscato_confirm/main.go`) -/

/-- `fields[0]` of a record split on tab bytes: the prefix before the
first tab. -/
def keyTab (l : List Nat) : List Nat := l.takeWhile fun b => b ≠ 9

/-- Go `bytes.Compare`: lexicographic byte comparison. -/
def compareBytes : List Nat → List Nat → Ordering
  | [], [] => .eq
  | [], _ :: _ => .lt
  | _ :: _, [] => .gt
  | a :: x, b :: y =>
    if a < b then .lt else if b < a then .gt else compareBytes x y

/-- The state of a `breader` between calls to `Next`: remaining input
lines, the stashed record, the `last` record used by the sort check,
the `done` flag and the current block `recs`. -/
structure BlockState where
  inp : List (List Nat)
  stash : Option (List Nat)
  lastRec : Option (List Nat)
  bdone : Bool
  recs : List (List Nat)
deriving DecidableEq

/-- The scan loop of `breader.Next`.  Returns the new block, the stash,
the `last` record, the unconsumed input and the `done` flag; `.error`
models the `file is not sorted` fatal branch.  (At `ii > 0` the Go code
dereferences `b.last`; the default `[]` in the model is never reached
because `last` is assigned on every earlier iteration of the call.) -/
def nextLoop : List (List Nat) → List (List Nat) → Option (List Nat) → Nat →
    Except String
      (List (List Nat) × Option (List Nat) × Option (List Nat) ×
        List (List Nat) × Bool)
  | recs, [], lastr, _ => .ok (recs, none, lastr, [], true)
  | recs, rx :: rest, lastr, ii =>
    if recs ≠ [] ∧ keyTab recs.headI ≠ keyTab rx then
      .ok (recs, some rx, lastr, rest, false)
    else if ii > 0 ∧ compareBytes (keyTab (lastr.getD [])) (keyTab rx) = .gt then
      .error "file is not sorted"
    else
      nextLoop (recs ++ [rx]) rest (some rx) (ii + 1)

/-- `breader.Next`: returns `false` when already done, otherwise seeds
the block with the stash and runs the scan loop. -/
def bnext (st : BlockState) : Except String (Bool × BlockState) :=
  if st.bdone then .ok (false, st)
  else
    match nextLoop st.stash.toList st.inp st.lastRec 0 with
    | .error e => .error e
    | .ok (recs, stash, lastr, rest, isdone) =>
      .ok (true, ⟨rest, stash, lastr, isdone, recs⟩)

/-- Drive a `breader` for at most `fuel` calls to `Next`, collecting
the observed blocks. -/
def runReader : Nat → BlockState → Except String (List (List (List Nat)))
  | 0, _ => .ok []
  | fuel + 1, st =>
    match bnext st with
    | .error e => .error e
    | .ok (false, _) => .ok []
    | .ok (true, st1) => (runReader fuel st1).map fun bs => st1.recs :: bs

/-! ## Target scanner (`cmd/muscato_screen/main.go`) -/

/-- A candidate-hit record as assembled by `processSeq` and passed to
`harvest` through the hit channel. -/
structure ScreenRec where
  mseq : List Nat
  left : List Nat
  right : List Nat
  tnum : Nat
  pos : Nat
deriving DecidableEq

/-- The first-window special case of `processSeq` (the initial hash
state, `j = w−1`), for window offset `q1` and target number `tnum`,
given that the Bloom probe reported a match: a candidate is emitted
only for `q1 = 0`, with right pad `seq[hlen:jz]` where `jz = 100 − q2`
clamped down to `len seq`.  `none` models no emission (or a slice
panic, in which case nothing reaches the channel either). -/
def firstEmit (w q1 tnum : Nat) (seq : List Nat) : Option ScreenRec :=
  if seq.length < w then none
  else if q1 ≠ 0 then none
  else
    (gslice seq 0 w).bind fun ms =>
    (gslice seq w
      (if 100 - ((q1 : ℤ) + w) > (seq.length : ℤ) then (seq.length : ℤ)
       else 100 - ((q1 : ℤ) + w))).bind fun rt =>
    some ⟨ms, [], rt, tnum, 0⟩

/-- One iteration of the main scan loop of `processSeq` at byte
position `j` (`hlen ≤ j < len seq`), for window offset `q1`, given
that the Bloom probe reported a match at `j`: the candidate record
emitted, if any.  The matching window is `seq[jx:jy]`, the left tail
`seq[jw:jx]`, the right tail `seq[jy:jz]` with
`jz = min(jy + maxReadLen − q2, len seq)`, and the hit carries
`pos = j − hlen + 1`. -/
def emitAt (w maxReadLen q1 tnum : Nat) (seq : List Nat) (j : Nat) :
    Option ScreenRec :=
  if j < w ∨ seq.length ≤ j then none
  else if (j : ℤ) < (q1 : ℤ) + w - 1 then none
  else if ((j : ℤ) - w + 1 - q1) < 0 then none
  else
    (gslice seq ((j : ℤ) - w + 1) ((j : ℤ) + 1)).bind fun ms =>
    (gslice seq ((j : ℤ) - w + 1 - q1) ((j : ℤ) - w + 1)).bind fun lf =>
    (gslice seq ((j : ℤ) + 1)
      (if (j : ℤ) + 1 + maxReadLen - ((q1 : ℤ) + w) > (seq.length : ℤ)
       then (seq.length : ℤ)
       else (j : ℤ) + 1 + maxReadLen - ((q1 : ℤ) + w))).bind fun rt =>
    some ⟨ms, lf, rt, tnum, ((j : ℤ) - w + 1).toNat⟩

/-- The byte rendering of one candidate hit by `harvest`: the three
sequence fields tab-separated, then the gene number written with
`%011d\t`, then the position written with `strconv.Itoa`, then a
newline. -/
def renderHit (r : ScreenRec) : List Nat :=
  r.mseq ++ [9] ++ r.left ++ [9] ++ r.right ++ [9] ++
    sprintf011 r.tnum ++ [9] ++ itoa r.pos ++ [10]

/-- The position field of a rendered candidate line: the suffix after
the last tab byte, with the trailing newline removed. -/
def posFieldOf (line : List Nat) : List Nat :=
  (line.dropLast.reverse.takeWhile fun b => b ≠ 9).reverse

/-- Claim-side definition, written from the spec's words (§3, §4.6):
the right pad of a candidate hit at window start `pos` and offset `q1`
is `target[pos+w : min(pos+w+(maxReadLen−w−q), len target)]`. -/
def rightPadSpec (w maxReadLen q1 : Nat) (seq : List Nat) (pos : Nat) :
    Option (List Nat) :=
  gslice seq ((pos : ℤ) + w)
    (min ((pos : ℤ) + w + ((maxReadLen : ℤ) - w - q1)) (seq.length : ℤ))

/-! ## Windowed read stream (`muscato_window_reads`) -/

/-- One record of a per-offset windowed read stream:
`(key, leftTail, rightTail)`. -/
structure WindowRec where
  key : List Nat
  left : List Nat
  rightT : List Nat
deriving DecidableEq

/-- The per-read, per-window body of the main loop of
`muscato_window_reads`: skip when the read is shorter than `q1 + w`,
apply the entropy gate to `key = seq[q1:q2]`, and otherwise emit
`(key, seq[0:q1], seq[q2:])`. -/
def windowRead (w q1 minDinuc : Nat) (seq : List Nat) : Option WindowRec :=
  if seq.length < q1 + w then none
  else if countDinuc ((seq.drop q1).take w) < minDinuc then none
  else some ⟨(seq.drop q1).take w, seq.take q1, seq.drop (q1 + w)⟩

/-! ## Cross-window consolidator (`cmd/muscato_combine_windows/main.go`) -/

/-- ASCII whitespace in the sense of Go `strings.Fields` /
`unicode.IsSpace`, restricted to single bytes. -/
def isSpace (b : Nat) : Bool :=
  b == 9 || b == 10 || b == 11 || b == 12 || b == 13 || b == 32

/-- Go `strings.Fields`: the maximal runs of non-whitespace bytes. -/
def fieldsWS (l : List Nat) : List (List Nat) :=
  (l.splitOnP isSpace).filter fun f => f ≠ []

/-- Go `strconv.Atoi` on the digit strings that occur in the `NX`
column (rendered upstream with `%d` from a nonnegative int): error
unless nonempty and all ASCII digits. -/
def atoi (l : List Nat) : Option Nat :=
  if l = [] then none
  else if l.all fun b => 48 ≤ b && b ≤ 57 then
    some (l.foldl (fun acc b => 10 * acc + (b - 48)) 0)
  else none

/-- Field `x[3]` (the `nmiss` column) of a line, parsed as in
`writebest`; `none` models the fatal exit on a missing field or a
parse failure. -/
def nmissOf (line : List Nat) : Option Nat :=
  match (fieldsWS line)[3]? with
  | some f => atoi f
  | none => none

/-- Field `field[0]` (the read sequence) of a line; `none` models the
index panic on a line with no fields. -/
def keyOf (line : List Nat) : Option (List Nat) := (fieldsWS line)[0]?

/-- `keyOf` with a default, used to phrase runs of equal keys; the
theorems require every line to have a key. -/
def keyD (line : List Nat) : List Nat := (keyOf line).getD []

/-- The `best` accumulation of `writebest`: `best` starts at the
sentinel `−1` and is replaced whenever it is unset or a smaller
`nmiss` value is seen. -/
def bestFold (b : ℤ) (ys : List Nat) : ℤ :=
  ys.foldl (fun b y => if b = -1 ∨ (y : ℤ) < b then (y : ℤ) else b) b

/-- The minimum-mismatch value of a block as computed by `writebest`. -/
def computeBest (ys : List Nat) : ℤ := bestFold (-1) ys

/-- The first pass of `writebest`: parse the `nmiss` column of every
line in order, aborting on the first failure. -/
def parseAll : List (List Nat) → Option (List Nat)
  | [] => some []
  | l :: rest =>
    (nmissOf l).bind fun y => (parseAll rest).map fun ys => y :: ys

/-- `writebest`: parse the `nmiss` column of every block line, find
the minimum, and write exactly the lines whose `nmiss` is at most
`best + mmtol`. -/
def writebest (mmtol : ℤ) (block : List (List Nat)) :
    Option (List (List Nat)) :=
  (parseAll block).map fun ys =>
    ((block.zip ys).filter fun ly =>
      ((ly.2 : ℤ) ≤ computeBest ys + mmtol)).map Prod.fst

/-- The block-grouping loop of `muscato_combine_windows.main`: `cur`
is the `current` key (`none` models the initial empty string), `block`
the lines of the current block.  On a key change the block goes
through `writebest`; at end of input the final block is processed.
`none` models a fatal error. -/
def combLoop (mmtol : ℤ) : Option (List Nat) → List (List Nat) →
    List (List Nat) → Option (List (List Nat))
  | _, block, [] => writebest mmtol block
  | cur, block, l :: rest =>
    (keyOf l).bind fun k =>
    if cur = none ∨ cur = some k then
      combLoop mmtol (some k) (block ++ [l]) rest
    else
      (writebest mmtol block).bind fun out1 =>
      (combLoop mmtol (some k) [l] rest).map fun out2 => out1 ++ out2

/-- The per-read min-mismatch filter of `muscato_combine_windows`
applied to the whole (already uniq-sorted) stream. -/
def combineStream (mmtol : ℤ) (ls : List (List Nat)) :
    Option (List (List Nat)) :=
  combLoop mmtol none [] ls

/-- Byte-wise lexicographic `≤` on lines, as the `LC_ALL=C` host sort
orders them. -/
def lexLe (a b : List Nat) : Bool := !(compareBytes a b == .gt)

/-- `lexLe` as a relation. -/
def LexLe (a b : List Nat) : Prop := lexLe a b = true

instance : DecidableRel LexLe := fun a b => instDecidableEqBool _ _

/-- Modelled from the spec: the external `sort -u` (host `sort` binary,
outside this repository) over byte lines with `LC_ALL=C`:
lexicographically sorted output with exact duplicate lines removed. -/
def sortUniq (ls : List (List Nat)) : List (List Nat) :=
  (ls.insertionSort LexLe).dedup

/-- One run of §4.8: the concatenated per-offset streams piped through
the external unique-sort, then the per-read min-mismatch filter. -/
def consolidate (mmtol : ℤ) (ls : List (List Nat)) :
    Option (List (List Nat)) :=
  combineStream mmtol (sortUniq ls)

/-- Maximal runs of consecutive lines sharing a key. -/
def runsOf : List (List Nat) → List (List (List Nat))
  | [] => []
  | l :: rest =>
    (l :: rest.takeWhile fun x => keyD x = keyD l) ::
      runsOf (rest.dropWhile fun x => keyD x = keyD l)
termination_by ls => ls.length
decreasing_by
  have hsub : (List.dropWhile (fun x => decide (keyD x = keyD l)) rest).Sublist
      rest := List.dropWhile_sublist _
  have := hsub.length_le
  simp only [List.length_cons]
  omega

/-- Per-run consolidation: `writebest` on every run, concatenated. -/
def combRuns (mmtol : ℤ) : List (List (List Nat)) →
    Option (List (List Nat))
  | [] => some []
  | r :: rs =>
    (writebest mmtol r).bind fun o =>
    (combRuns mmtol rs).map fun os => o ++ os

/-- Equal keys are contiguous in the stream (what the upstream sort
guarantees for well-formed lines). -/
def contigKeys : List (List Nat) → Bool
  | [] => true
  | l :: rest =>
    let tail := rest.dropWhile fun x => keyD x = keyD l
    decide (∀ x ∈ tail, keyD x ≠ keyD l) && contigKeys tail
termination_by ls => ls.length
decreasing_by
  have hsub : (List.dropWhile (fun x => decide (keyD x = keyD l)) rest).Sublist
      rest := List.dropWhile_sublist _
  have := hsub.length_le
  simp only [List.length_cons]
  omega

/-! ## Read dedup and counters (`muscato/muscato.go` `prepReads`,
`muscato_uniqify/muscato_uniqify.go`) -/

/-- One deduplicated read record: sequence, multiplicity, rendered
name-list field. -/
structure ReadRec where
  seq : List Nat
  mult : Nat
  names : List Nat
deriving DecidableEq

/-- `";"`-joining of read names, as `strings.Join(name, ";")`. -/
def joinNames (names : List (List Nat)) : List Nat :=
  List.intercalate [59] names

/-- The name-list truncation of `prepReads.dowrite`: over 1000 bytes,
keep the first 995 and append `"..."`. -/
def truncPrep (names : List (List Nat)) : List Nat :=
  if (joinNames names).length > 1000 then
    (joinNames names).take 995 ++ [46, 46, 46]
  else joinNames names

/-- The name-list truncation of `muscato_uniqify.printrow`: over 1000
bytes, keep the first 996 and append `"..."`. -/
def truncUniq (names : List (List Nat)) : List Nat :=
  if (joinNames names).length > 1000 then
    (joinNames names).take 996 ++ [46, 46, 46]
  else joinNames names

/-- The dedup loop of `prepReads` over the sorted (sequence, name)
stream: on a sequence change `dowrite` emits `(seq, n, names)` and the
accumulators reset to the new record; the final group is written after
the loop. -/
def prepLoop (cur : List Nat) (names : List (List Nat)) (n : Nat) :
    List (List Nat × List Nat) → List ReadRec
  | [] => [⟨cur, n, truncPrep names⟩]
  | (seq1, name1) :: rest =>
    if seq1 = cur then prepLoop cur (names ++ [name1]) (n + 1) rest
    else ⟨cur, n, truncPrep names⟩ :: prepLoop seq1 [name1] 1 rest

/-- `prepReads`' dedup pass over the sorted stream; the empty input is
fatal (`no input`). -/
def prepReads : List (List Nat × List Nat) → Option (List ReadRec)
  | [] => none
  | (seq0, name0) :: rest => some (prepLoop seq0 [name0] 1 rest)

/-- The counting loop of `muscato_uniqify.main`: `nseq` is incremented
once per line read inside the loop (the pre-read first line is never
counted), `nunq` once per `printrow` call (on each sequence change and
once at the end). -/
def uniqLoop (cur : List Nat) (nseq nunq : Nat) :
    List (List Nat × List Nat) → Nat × Nat
  | [] => (nseq, nunq + 1)
  | (seq1, _) :: rest =>
    if seq1 ≠ cur then uniqLoop seq1 (nseq + 1) (nunq + 1) rest
    else uniqLoop cur (nseq + 1) nunq rest

/-- The `(NumTotal, NumUnique)` pair that `muscato_uniqify` writes to
`seqinfo.json`; `none` models the fatal `no input` exit. -/
def uniqCounts : List (List Nat × List Nat) → Option (Nat × Nat)
  | [] => none
  | (seq0, _) :: rest => some (uniqLoop seq0 0 0 rest)

/-- Equal values are contiguous (what the upstream sort guarantees for
the sequence column). -/
def contigVals : List (List Nat) → Bool
  | [] => true
  | kv :: rest =>
    let tail := rest.dropWhile fun x => x = kv
    decide (∀ x ∈ tail, x ≠ kv) && contigVals tail
termination_by ls => ls.length
decreasing_by
  simp only [List.length_cons]
  exact Nat.lt_succ_of_le (List.Sublist.length_le (List.dropWhile_sublist _))

/-! ## Proofs -/

theorem ham_nil_right (x : List Nat) : ham x [] = 0 := by
  cases x <;> simp [ham, List.zip]

theorem ham_cons (a b : Nat) (x y : List Nat) :
    ham (a :: x) (b :: y) = (if a ≠ b then 1 else 0) + ham x y := by
  by_cases h : a = b <;> simp [ham, h, Nat.add_comm]

theorem cdiff_eq_ham : ∀ x y : List Nat, x.length ≤ y.length →
    cdiff x y = some (ham x y)
  | [], y, _ => by simp [cdiff, ham]
  | a :: x, [], h => by simp at h
  | a :: x, b :: y, h => by
    have ih := cdiff_eq_ham x y (by simpa using h)
    simp [cdiff, ih, ham_cons]

theorem cdiff_isSome : ∀ x y : List Nat, x.length ≤ y.length →
    (cdiff x y).isSome := by
  intro x y h
  rw [cdiff_eq_ham x y h]
  rfl

theorem ham_self : ∀ x : List Nat, ham x x = 0
  | [] => rfl
  | a :: x => by simp [ham_cons, ham_self x]

theorem ham_comm : ∀ x y : List Nat, ham x y = ham y x
  | [], y => by simp [ham, List.zip]
  | x, [] => by simp [ham, List.zip]
  | a :: x, b :: y => by
    rw [ham_cons, ham_cons, ham_comm x y]
    by_cases h : a = b
    · simp [h]
    · simp [h, Ne.symm h]

theorem ham_append (a b c d : List Nat) (h : a.length = c.length) :
    ham (a ++ b) (c ++ d) = ham a c + ham b d := by
  induction a generalizing c with
  | nil =>
    cases c with
    | nil => simp [ham]
    | cons _ _ => simp at h
  | cons x xs ih =>
    cases c with
    | nil => simp at h
    | cons y ys =>
      simp only [List.cons_append, ham_cons]
      rw [ih ys (by simpa using h)]
      omega

theorem compareBytes_self : ∀ x : List Nat, compareBytes x x = .eq
  | [] => rfl
  | a :: x => by simp [compareBytes, compareBytes_self x]

theorem nextLoop_ne_error :
    ∀ (inp recs : List (List Nat)) (lastr : Option (List Nat)) (ii : Nat),
      (ii > 0 → ∃ lr, lastr = some lr ∧ recs ≠ [] ∧
        keyTab lr = keyTab recs.headI) →
      ∀ e, nextLoop recs inp lastr ii ≠ .error e := by
  intro inp
  induction inp with
  | nil => intro recs lastr ii _ e h; simp [nextLoop] at h
  | cons rx rest ih =>
    intro recs lastr ii hinv e h
    rw [nextLoop] at h
    by_cases hs : recs ≠ [] ∧ keyTab recs.headI ≠ keyTab rx
    · rw [if_pos hs] at h; exact Except.noConfusion h
    · rw [if_neg hs] at h
      by_cases hc : ii > 0 ∧
          compareBytes (keyTab (lastr.getD [])) (keyTab rx) = .gt
      · obtain ⟨hii, hcmp⟩ := hc
        obtain ⟨lr, hlr, hne, hkey⟩ := hinv hii
        push_neg at hs
        have hkeq : keyTab recs.headI = keyTab rx := hs hne
        rw [hlr] at hcmp
        simp only [Option.getD_some] at hcmp
        rw [hkey, hkeq, compareBytes_self] at hcmp
        exact Ordering.noConfusion hcmp
      · rw [if_neg hc] at h
        refine ih (recs ++ [rx]) (some rx) (ii + 1) ?_ e h
        intro _
        refine ⟨rx, rfl, by simp, ?_⟩
        cases recs with
        | nil => simp
        | cons r0 rs =>
          push_neg at hs
          have : keyTab (r0 :: rs).headI = keyTab rx := hs (by simp)
          simp only [List.cons_append, List.headI]
          simp only [List.headI] at this
          exact this.symm

theorem bnext_ne_error (st : BlockState) (e : String) : bnext st ≠ .error e := by
  unfold bnext
  by_cases hd : st.bdone
  · simp [hd]
  · simp only [hd, if_false]
    intro h
    rcases hnl : nextLoop st.stash.toList st.inp st.lastRec 0 with e' | ok
    · exact nextLoop_ne_error st.inp st.stash.toList st.lastRec 0
        (by intro h0; omega) e' hnl
    · rw [hnl] at h
      exact Except.noConfusion h

theorem runReader_ok : ∀ (fuel : Nat) (st : BlockState),
    ∃ bs, runReader fuel st = .ok bs := by
  intro fuel
  induction fuel with
  | zero => intro st; exact ⟨[], rfl⟩
  | succ n ih =>
    intro st
    rcases hb : bnext st with e | ⟨flag, st1⟩
    · exact absurd hb (bnext_ne_error st e)
    · cases flag
      · exact ⟨[], by rw [runReader, hb]⟩
      · obtain ⟨bs, hbs⟩ := ih st1
        refine ⟨st1.recs :: bs, ?_⟩
        rw [runReader, hb]
        simp [hbs, Except.map]

theorem checkPair_emit (pMatch : ℚ) (s : SourceRec) (m : MatchRec)
    (c : ConfirmRec) (hlen : m.mlft.length = s.slft.length)
    (hemit : checkPair pMatch s m = some (some c)) :
    s.srgt.length ≤ m.mrgt.length ∧
    c = ⟨s.slft ++ s.stag ++ s.srgt,
         m.mlft ++ m.mtag ++ m.mrgt.take s.srgt.length,
         (m.mpos : ℤ) - m.mlft.length,
         ham m.mlft s.slft + ham (m.mrgt.take s.srgt.length) s.srgt,
         m.mgene⟩ ∧
    ((ham m.mlft s.slft + ham (m.mrgt.take s.srgt.length) s.srgt : ℕ) : ℤ) ≤
      goInt ((1 - pMatch) *
        ((s.stag.length + s.slft.length + s.srgt.length : ℕ) : ℚ)) := by
  unfold checkPair at hemit
  by_cases hg : s.srgt.length > m.mrgt.length
  · rw [if_pos hg] at hemit
    exact absurd hemit (by simp)
  · rw [if_neg hg] at hemit
    push_neg at hg
    have htk : (m.mrgt.take s.srgt.length).length = s.srgt.length := by
      simp only [List.length_take]
      omega
    rw [cdiff_eq_ham m.mlft s.slft (le_of_eq hlen),
        cdiff_eq_ham (m.mrgt.take s.srgt.length) s.srgt (le_of_eq htk),
        Option.some_bind, Option.some_bind] at hemit
    by_cases hx : ((ham m.mlft s.slft +
        ham (m.mrgt.take s.srgt.length) s.srgt : ℕ) : ℤ) >
        goInt ((1 - pMatch) *
          ((s.stag.length + s.slft.length + s.srgt.length : ℕ) : ℚ))
    · rw [if_pos hx] at hemit
      exact absurd hemit (by simp)
    · rw [if_neg hx] at hemit
      have hcc := Option.some.inj (Option.some.inj hemit)
      exact ⟨hg, hcc.symm, not_lt.mp hx⟩

/-- **C1** (verifier soundness).  For every confirmed-match record
emitted by the candidate verifier for a joined pair whose window keys
agree and whose left parts have the common length of the window
offset, the aligned target string has exactly the length of the
reconstructed read, the reported `nx` equals the Hamming distance
between the read `rlft ∥ windowKey ∥ rrgt` and the aligned target
`tlft ∥ windowKey ∥ trgt[0:|rrgt|]`, and
`nx ≤ ⌊(1 − PMatch) · |read|⌋`. -/
theorem c1_verifier_soundness (pMatch : ℚ) (s : SourceRec) (m : MatchRec)
    (c : ConfirmRec) (hp1 : pMatch ≤ 1)
    (hkey : s.stag = m.mtag) (hlen : m.mlft.length = s.slft.length)
    (hemit : checkPair pMatch s m = some (some c)) :
    c.targetAligned.length = c.readSeq.length ∧
    c.nx = ham c.readSeq c.targetAligned ∧
    (c.nx : ℤ) ≤ Int.floor ((1 - pMatch) * (c.readSeq.length : ℚ)) := by
  obtain ⟨hg, hc, hbound⟩ := checkPair_emit pMatch s m c hlen hemit
  subst hc
  have htk : (m.mrgt.take s.srgt.length).length = s.srgt.length := by
    simp only [List.length_take]
    omega
  have hkl : s.stag.length = m.mtag.length := by rw [hkey]
  refine ⟨?_, ?_, ?_⟩
  · simp only [List.length_append, htk]
    omega
  · show ham m.mlft s.slft + ham (m.mrgt.take s.srgt.length) s.srgt =
      ham (s.slft ++ s.stag ++ s.srgt)
        (m.mlft ++ m.mtag ++ m.mrgt.take s.srgt.length)
    rw [ham_append (s.slft ++ s.stag) s.srgt (m.mlft ++ m.mtag)
        (m.mrgt.take s.srgt.length) (by simp [hlen, hkl]),
      ham_append s.slft s.stag m.mlft m.mtag hlen.symm,
      hkey, ham_self, ham_comm s.slft m.mlft,
      ham_comm s.srgt (m.mrgt.take s.srgt.length)]
    omega
  · show ((ham m.mlft s.slft +
        ham (m.mrgt.take s.srgt.length) s.srgt : ℕ) : ℤ) ≤ _
    have harg : (0 : ℚ) ≤ (1 - pMatch) *
        ((s.stag.length + s.slft.length + s.srgt.length : ℕ) : ℚ) := by
      apply mul_nonneg (by linarith)
      positivity
    unfold goInt at hbound
    rw [if_pos harg] at hbound
    have hcast : (((s.slft ++ s.stag ++ s.srgt : List Nat).length : ℚ)) =
        ((s.stag.length + s.slft.length + s.srgt.length : ℕ) : ℚ) := by
      simp only [List.length_append]
      push_cast
      ring
    rw [hcast]
    exact hbound

def c1src : SourceRec := ⟨[65, 67], [71], [84]⟩

def c1mtc : MatchRec := ⟨[65, 67], [71], [84, 84], [48], 5⟩

def c1out : ConfirmRec := ⟨[71, 65, 67, 84], [71, 65, 67, 84], 4, 0, [48]⟩

/-- Witness for C1 at a concrete emitted pair. -/
theorem c1_verifier_soundness_witness :
    c1out.targetAligned.length = c1out.readSeq.length ∧
    c1out.nx = ham c1out.readSeq c1out.targetAligned ∧
    (c1out.nx : ℤ) ≤ Int.floor ((1 - (1 : ℚ)) * (c1out.readSeq.length : ℚ)) :=
  c1_verifier_soundness 1 c1src c1mtc c1out (by norm_num) rfl rfl
    (by norm_num [checkPair, cdiff, goInt, c1src, c1mtc, c1out])

theorem siftup_length (ii : Nat) :
    ∀ q : List ConfirmRec, (siftup q ii).length = q.length := by
  induction ii using Nat.strong_induction_on with
  | _ ii ih =>
    intro q
    rw [siftup]
    by_cases h0 : ii = 0
    · simp [h0]
    · rw [dif_neg h0]
      rcases hja : q[(ii - 1) / 2]? with _ | a
      · simp [hja]
      · rcases hib : q[ii]? with _ | b
        · simp [hja, hib]
        · simp only [hja, hib]
          by_cases hcmp : a.nx > b.nx
          · rw [if_pos hcmp]
            rw [ih ((ii - 1) / 2)
              (by have := Nat.div_le_self (ii - 1) 2; omega)]
            simp
          · rw [if_neg hcmp]

theorem qinsert_length_le (maxMatches : Nat) (q : List ConfirmRec)
    (a : ConfirmRec) (h : q.length ≤ maxMatches) :
    (qinsert maxMatches q a).length ≤ maxMatches := by
  unfold qinsert
  have hl : (siftup (q ++ [a]) ((q ++ [a]).length - 1)).length =
      q.length + 1 := by
    rw [siftup_length]
    simp
  by_cases hgt : (siftup (q ++ [a]) ((q ++ [a]).length - 1)).length > maxMatches
  · rw [if_pos hgt]
    simp [List.length_take]
  · rw [if_neg hgt]
    omega

theorem spLoop_best_le (pMatch : ℚ) (maxMatches : Nat) :
    ∀ (pairs : List (MatchRec × SourceRec)) (q out : List ConfirmRec),
      q.length ≤ maxMatches →
      spLoop pMatch maxMatches false pairs q = some out →
      out.length ≤ maxMatches := by
  intro pairs
  induction pairs with
  | nil =>
    intro q out hq h
    rw [spLoop] at h
    cases h
    exact hq
  | cons p rest ih =>
    intro q out hq h
    obtain ⟨m, s⟩ := p
    rw [spLoop] at h
    rcases hcp : checkPair pMatch s m with _ | oc
    · rw [hcp] at h
      exact Option.noConfusion h
    · rcases oc with _ | c
      · rw [hcp] at h
        exact ih q out hq h
      · rw [hcp] at h
        simp only [Bool.false_eq_true, if_false] at h
        exact ih _ out (qinsert_length_le _ _ _ hq) h

theorem spLoop_first_le (pMatch : ℚ) (maxMatches : Nat) :
    ∀ (pairs : List (MatchRec × SourceRec)) (q out : List ConfirmRec),
      q.length ≤ maxMatches →
      spLoop pMatch maxMatches true pairs q = some out →
      out.length ≤ maxMatches + 1 := by
  intro pairs
  induction pairs with
  | nil =>
    intro q out hq h
    rw [spLoop] at h
    cases h
    omega
  | cons p rest ih =>
    intro q out hq h
    obtain ⟨m, s⟩ := p
    rw [spLoop] at h
    rcases hcp : checkPair pMatch s m with _ | oc
    · rw [hcp] at h
      exact Option.noConfusion h
    · rcases oc with _ | c
      · rw [hcp] at h
        exact ih q out hq h
      · rw [hcp] at h
        simp only [if_true] at h
        by_cases hl1 : (q ++ [c]).length > maxMatches
        · rw [if_pos hl1] at h
          cases h
          simp only [List.length_append, List.length_cons, List.length_nil]
          omega
        · rw [if_neg hl1] at h
          refine ih (q ++ [c]) out ?_ h
          simp only [List.length_append, List.length_cons, List.length_nil] at hl1 ⊢
          omega

/-- **C2** (amended).  Per-window output bound of the candidate
verifier: in `best` mode at most `MaxMatches` records are emitted for a
windowKey block pair; in `first` mode at most `MaxMatches + 1` records
are emitted (the stopping test runs only after appending, so the list
can reach `MaxMatches + 1` before the loop stops). -/
theorem c2_per_window_bound (pMatch : ℚ) (maxMatches : Nat)
    (source : List SourceRec) (matchRecs : List MatchRec)
    (out : List ConfirmRec) :
    (searchpairs pMatch maxMatches false source matchRecs = some out →
      out.length ≤ maxMatches) ∧
    (searchpairs pMatch maxMatches true source matchRecs = some out →
      out.length ≤ maxMatches + 1) :=
  ⟨fun h => spLoop_best_le pMatch maxMatches _ [] out (by simp) h,
   fun h => spLoop_first_le pMatch maxMatches _ [] out (by simp) h⟩

def c2src : List SourceRec := [⟨[65], [], []⟩]

def c2mtc : List MatchRec := [⟨[65], [], [], [48], 0⟩, ⟨[65], [], [], [49], 0⟩]

set_option maxRecDepth 4000 in
/-- **C2** counterexample: in `first` mode with `MaxMatches = 1` and a
block pair producing two confirmable matches, `searchpairs` emits two
records, exceeding `MaxMatches`. -/
theorem c2_counterexample :
    (searchpairs 0 1 true c2src c2mtc).map List.length = some 2 ∧
    ¬ ((2 : Nat) ≤ 1) := by
  constructor
  · norm_num [searchpairs, c2src, c2mtc, spLoop, checkPair, cdiff, goInt,
      List.flatMap]
  · omega

def c2outBest : List ConfirmRec := [⟨[65], [65], 0, 0, [48]⟩]

def c2outFirst : List ConfirmRec :=
  [⟨[65], [65], 0, 0, [48]⟩, ⟨[65], [65], 0, 0, [49]⟩]

theorem c2eval_siftup0 :
    siftup [⟨[65], [65], 0, 0, [48]⟩] 0 = [⟨[65], [65], 0, 0, [48]⟩] := by
  rw [siftup]
  simp

theorem c2eval_siftup1 :
    siftup [⟨[65], [65], 0, 0, [48]⟩, ⟨[65], [65], 0, 0, [49]⟩] 1 =
      [⟨[65], [65], 0, 0, [48]⟩, ⟨[65], [65], 0, 0, [49]⟩] := by
  rw [siftup]
  simp

set_option maxRecDepth 4000 in
/-- Witness for the amended C2 at concrete block pairs. -/
theorem c2_per_window_bound_witness :
    c2outBest.length ≤ 1 ∧ c2outFirst.length ≤ 1 + 1 :=
  ⟨(c2_per_window_bound 0 1 c2src c2mtc c2outBest).1
      (by norm_num [searchpairs, c2src, c2mtc, c2outBest, spLoop, checkPair,
        cdiff, goInt, qinsert, c2eval_siftup0, c2eval_siftup1, List.flatMap]),
   (c2_per_window_bound 0 1 c2src c2mtc c2outFirst).2
      (by norm_num [searchpairs, c2src, c2mtc, c2outFirst, spLoop, checkPair,
        cdiff, goInt, List.flatMap])⟩

/-- **C4** (refuting the claim): the sort-order check of
`breader.Next` is unreachable.  For every input stream — including one
with a strictly descending windowKey — the reader never takes the
`file is not sorted` fatal branch; on the two-line descending stream
`B…`, `A…` it simply produces two successive blocks. -/
theorem c4_sort_violation_not_fatal :
    (∀ (fuel : Nat) (st : BlockState), ∃ bs, runReader fuel st = .ok bs) ∧
    runReader 3 ⟨[[66, 9, 120], [65, 9, 121]], none, none, false, []⟩ =
      .ok [[[66, 9, 120]], [[65, 9, 121]]] := by
  refine ⟨runReader_ok, ?_⟩
  simp [runReader, bnext, nextLoop, keyTab, compareBytes, Except.map]

theorem gslice_length (s : List Nat) (lo hi : ℤ) (r : List Nat)
    (h : gslice s lo hi = some r) : (r.length : ℤ) = hi - lo := by
  unfold gslice at h
  by_cases hc : 0 ≤ lo ∧ lo ≤ hi ∧ hi ≤ (s.length : ℤ)
  · rw [if_pos hc] at h
    cases h
    obtain ⟨h0, h1, h2⟩ := hc
    simp only [List.length_take, List.length_drop]
    omega
  · rw [if_neg hc] at h
    exact absurd h (by simp)

theorem min_of_goClamp (a b : ℤ) : (if a > b then b else a) = min a b := by
  split_ifs with h <;> omega

theorem emitAt_emit (w maxReadLen q1 tnum : Nat) (seq : List Nat) (j : Nat)
    (r : ScreenRec) (h : emitAt w maxReadLen q1 tnum seq j = some r) :
    w ≤ j ∧ j < seq.length ∧ 0 ≤ (j : ℤ) - w + 1 - q1 ∧
    gslice seq ((j : ℤ) - w + 1) ((j : ℤ) + 1) = some r.mseq ∧
    gslice seq ((j : ℤ) - w + 1 - q1) ((j : ℤ) - w + 1) = some r.left ∧
    gslice seq ((j : ℤ) + 1)
      (min ((j : ℤ) + 1 + maxReadLen - ((q1 : ℤ) + w)) (seq.length : ℤ)) =
      some r.right ∧
    r.pos = ((j : ℤ) - w + 1).toNat ∧ r.tnum = tnum := by
  unfold emitAt at h
  rw [min_of_goClamp] at h
  by_cases h1 : j < w ∨ seq.length ≤ j
  · rw [if_pos h1] at h
    exact absurd h (by simp)
  · rw [if_neg h1] at h
    push_neg at h1
    by_cases h2 : (j : ℤ) < (q1 : ℤ) + w - 1
    · rw [if_pos h2] at h
      exact absurd h (by simp)
    · rw [if_neg h2] at h
      by_cases h3 : ((j : ℤ) - w + 1 - q1) < 0
      · rw [if_pos h3] at h
        exact absurd h (by simp)
      · rw [if_neg h3] at h
        rcases hms : gslice seq ((j : ℤ) - w + 1) ((j : ℤ) + 1) with _ | ms
        · rw [hms] at h
          exact absurd h (by simp)
        · rw [hms, Option.some_bind] at h
          rcases hlf : gslice seq ((j : ℤ) - w + 1 - q1) ((j : ℤ) - w + 1)
            with _ | lf
          · rw [hlf] at h
            exact absurd h (by simp)
          · rw [hlf, Option.some_bind] at h
            rcases hrt : gslice seq ((j : ℤ) + 1)
                (min ((j : ℤ) + 1 + maxReadLen - ((q1 : ℤ) + w))
                  (seq.length : ℤ)) with _ | rt
            · rw [hrt] at h
              exact absurd h (by simp)
            · rw [hrt, Option.some_bind] at h
              have hr := Option.some.inj h
              cases hr
              exact ⟨h1.1, h1.2, not_lt.mp h3, rfl, rfl, rfl, rfl, rfl⟩

/-- **C3** (amended).  Candidate right-pad extent: every main-loop hit
of the target scanner carries
`rightPad = target[pos+w : min(pos+w+(MaxReadLength−w−q), len target)]`;
the special-cased very first window (`j = w−1`, only `q = 0`) instead
uses the hardcoded right end `min(100−w, len target)`. -/
theorem c3_right_pad_extent (w maxReadLen q1 tnum : Nat) (seq : List Nat)
    (j : Nat) (r : ScreenRec) :
    (emitAt w maxReadLen q1 tnum seq j = some r →
      rightPadSpec w maxReadLen q1 seq r.pos = some r.right) ∧
    (firstEmit w q1 tnum seq = some r →
      gslice seq (w : ℤ) (min (100 - (w : ℤ)) (seq.length : ℤ)) =
        some r.right) := by
  constructor
  · intro h
    obtain ⟨hw, hj, hq, hms, hlf, hrt, hpos, htn⟩ :=
      emitAt_emit w maxReadLen q1 tnum seq j r h
    have hpz : ((r.pos : ℤ)) = (j : ℤ) - w + 1 := by
      rw [hpos]
      omega
    unfold rightPadSpec
    have e1 : (r.pos : ℤ) + w = (j : ℤ) + 1 := by omega
    rw [e1, show ((j : ℤ) + 1 + ((maxReadLen : ℤ) - w - q1)) =
      (j : ℤ) + 1 + maxReadLen - ((q1 : ℤ) + w) by ring]
    exact hrt
  · intro h
    unfold firstEmit at h
    by_cases h1 : seq.length < w
    · rw [if_pos h1] at h
      exact absurd h (by simp)
    · rw [if_neg h1] at h
      by_cases h2 : q1 ≠ 0
      · rw [if_pos h2] at h
        exact absurd h (by simp)
      · rw [if_neg h2] at h
        push_neg at h2
        rcases hms : gslice seq 0 w with _ | ms
        · rw [hms] at h
          exact absurd h (by simp)
        · rw [hms, Option.some_bind] at h
          rcases hrt : gslice seq w
              (if 100 - ((q1 : ℤ) + w) > (seq.length : ℤ)
               then (seq.length : ℤ) else 100 - ((q1 : ℤ) + w)) with _ | rt
          · rw [hrt] at h
            exact absurd h (by simp)
          · rw [hrt, Option.some_bind] at h
            have hr := Option.some.inj h
            rw [min_of_goClamp, h2] at hrt
            have e3 : (100 : ℤ) - ((0 : ℕ) : ℤ) - (w : ℤ) = 100 - (w : ℤ) := by
              omega
            rw [← hr]
            rw [show (100 : ℤ) - (((0 : ℕ) : ℤ) + (w : ℤ)) =
              100 - (w : ℤ) by omega] at hrt
            exact hrt

def c3seq : List Nat :=
  [65, 66, 67, 68, 69, 70, 71, 72, 73, 74,
   75, 76, 77, 78, 79, 80, 81, 82, 83, 84]

/-- **C3** counterexample: with `w = 4`, `MaxReadLength = 10`, `q = 0`
and a 20-byte target, the very first window's emitted right pad is
`target[4:20]` (right end `min(100−w, len)`), not the claimed
`target[4:min(4+(10−4−0), 20)] = target[4:10]`. -/
theorem c3_counterexample :
    (firstEmit 4 0 0 c3seq).map ScreenRec.right =
      some [69, 70, 71, 72, 73, 74, 75, 76, 77, 78,
            79, 80, 81, 82, 83, 84] ∧
    rightPadSpec 4 10 0 c3seq 0 = some [69, 70, 71, 72, 73, 74] ∧
    (firstEmit 4 0 0 c3seq).map ScreenRec.right ≠
      rightPadSpec 4 10 0 c3seq 0 := by
  refine ⟨by decide, by decide, by decide⟩

/-- Witness for the amended C3: a main-loop hit and a first-window hit
on a concrete target. -/
theorem c3_right_pad_extent_witness :
    rightPadSpec 4 10 2 c3seq
        (⟨[70, 71, 72, 73], [68, 69], [74, 75, 76, 77], 0, 5⟩ :
          ScreenRec).pos =
      some [74, 75, 76, 77] ∧
    gslice c3seq (4 : ℤ) (min (100 - (4 : ℤ)) (c3seq.length : ℤ)) =
      some [69, 70, 71, 72, 73, 74, 75, 76, 77, 78,
            79, 80, 81, 82, 83, 84] :=
  ⟨(c3_right_pad_extent 4 10 2 0 c3seq 8
      ⟨[70, 71, 72, 73], [68, 69], [74, 75, 76, 77], 0, 5⟩).1 (by decide),
   (c3_right_pad_extent 4 10 0 0 c3seq 8
      ⟨[65, 66, 67, 68], [],
       [69, 70, 71, 72, 73, 74, 75, 76, 77, 78, 79, 80, 81, 82, 83, 84],
       0, 0⟩).2 (by decide)⟩

theorem itoaCore_digits (fuel : Nat) : ∀ n, n < fuel →
    ∀ b ∈ itoaCore fuel n, 48 ≤ b ∧ b ≤ 57 := by
  induction fuel with
  | zero => intro n h; omega
  | succ f ih =>
    intro n hn b hb
    rw [itoaCore] at hb
    by_cases h10 : n < 10
    · rw [if_pos h10] at hb
      simp only [List.mem_singleton] at hb
      omega
    · rw [if_neg h10] at hb
      rcases List.mem_append.mp hb with h1 | h2
      · have hdiv : n / 10 < n := Nat.div_lt_self (by omega) (by norm_num)
        exact ih (n / 10) (by omega) b h1
      · simp only [List.mem_singleton] at h2
        have := Nat.mod_lt n (show 0 < 10 by norm_num)
        omega

theorem itoa_digits (n : Nat) : ∀ b ∈ itoa n, 48 ≤ b ∧ b ≤ 57 :=
  itoaCore_digits (n + 1) n (by omega)

theorem itoaCore_ne_nil (fuel : Nat) : ∀ n, n < fuel →
    itoaCore fuel n ≠ [] := by
  induction fuel with
  | zero => intro n h; omega
  | succ f _ =>
    intro n _
    rw [itoaCore]
    by_cases h10 : n < 10
    · rw [if_pos h10]
      simp
    · rw [if_neg h10]
      simp

theorem itoa_ne_nil (n : Nat) : itoa n ≠ [] :=
  itoaCore_ne_nil (n + 1) n (by omega)

theorem itoaCore_headI (fuel : Nat) : ∀ n, n < fuel → 0 < n →
    (itoaCore fuel n).headI ≠ 48 := by
  induction fuel with
  | zero => intro n h; omega
  | succ f ih =>
    intro n hn hpos
    rw [itoaCore]
    by_cases h10 : n < 10
    · rw [if_pos h10]
      simp only [List.headI]
      omega
    · rw [if_neg h10]
      have hdiv : n / 10 < n := Nat.div_lt_self (by omega) (by norm_num)
      have hposd : 0 < n / 10 := Nat.div_pos (by omega) (by norm_num)
      have hne := itoaCore_ne_nil f (n / 10) (by omega)
      rcases hx : itoaCore f (n / 10) with _ | ⟨d, ds⟩
      · exact absurd hx hne
      · have hh := ih (n / 10) (by omega) hposd
        rw [hx] at hh
        simpa using hh

theorem itoa_headI (n : Nat) (h : 0 < n) : (itoa n).headI ≠ 48 :=
  itoaCore_headI (n + 1) n (by omega) h

theorem itoaCore_length_le (k : Nat) : ∀ fuel n, n < fuel → n < 10 ^ k →
    0 < k → (itoaCore fuel n).length ≤ k := by
  induction k with
  | zero => intro _ _ _ _ h; omega
  | succ k ih =>
    intro fuel n hf h10 _
    cases fuel with
    | zero => omega
    | succ f =>
      rw [itoaCore]
      by_cases hn : n < 10
      · rw [if_pos hn]
        simp only [List.length_singleton]
        omega
      · rw [if_neg hn]
        simp only [List.length_append, List.length_singleton]
        have hd : n / 10 < 10 ^ k := by
          rw [Nat.div_lt_iff_lt_mul (by norm_num : 0 < 10)]
          calc n < 10 ^ (k + 1) := h10
          _ = 10 ^ k * 10 := by ring
        have hk : 0 < k := by
          by_contra h0
          have hk0 : k = 0 := by omega
          rw [hk0] at h10
          simp at h10
          omega
        have hdiv : n / 10 < n := Nat.div_lt_self (by omega) (by norm_num)
        have := ih f (n / 10) (by omega) hd hk
        omega

theorem itoa_length_le_11 (n : Nat) (h : n < 10 ^ 11) :
    (itoa n).length ≤ 11 :=
  itoaCore_length_le 11 (n + 1) n (by omega) h (by norm_num)

theorem takeWhileNe9_append (a rest : List Nat) (ha : ∀ x ∈ a, x ≠ 9) :
    ((a ++ 9 :: rest).takeWhile fun b => b ≠ 9) = a := by
  induction a with
  | nil => simp [List.takeWhile_cons]
  | cons x xs ih =>
    have hx : x ≠ 9 := ha x (by simp)
    have hxs : ∀ y ∈ xs, y ≠ 9 := fun y hy => ha y (by simp [hy])
    have ih2 := ih hxs
    simp only [List.cons_append, List.takeWhile_cons]
    rw [if_pos (by simp [hx])]
    rw [ih2]

theorem posFieldOf_renderHit (r : ScreenRec) :
    posFieldOf (renderHit r) = itoa r.pos := by
  unfold posFieldOf renderHit
  have hform : r.mseq ++ [9] ++ r.left ++ [9] ++ r.right ++ [9] ++
      sprintf011 r.tnum ++ [9] ++ itoa r.pos ++ [10] =
      ((r.mseq ++ [9] ++ r.left ++ [9] ++ r.right ++ [9] ++
        sprintf011 r.tnum) ++ 9 :: itoa r.pos) ++ [10] := by
    simp [List.append_assoc]
  rw [hform, List.dropLast_concat, List.reverse_append]
  have hrev : (9 :: itoa r.pos).reverse = (itoa r.pos).reverse ++ [9] := by
    simp
  rw [hrev, List.append_assoc, List.singleton_append]
  rw [takeWhileNe9_append ((itoa r.pos).reverse) _ ?ha]
  · exact List.reverse_reverse _
  case ha =>
    intro x hx
    have := itoa_digits r.pos x (List.mem_reverse.mp hx)
    omega

/-- **C8** (amended).  In every rendered candidate-hit record, the
position field holds the absolute index in the target where the window
begins, rendered as a plain (unpadded) decimal with no leading zero,
while the gene id field is written zero-padded to 11 digits. -/
theorem c8_position_encoding (w maxReadLen q1 tnum : Nat) (seq : List Nat)
    (j : Nat) (r : ScreenRec)
    (hemit : emitAt w maxReadLen q1 tnum seq j = some r) :
    gslice seq (r.pos : ℤ) ((r.pos : ℤ) + w) = some r.mseq ∧
    posFieldOf (renderHit r) = itoa r.pos ∧
    (0 < r.pos → (itoa r.pos).headI ≠ 48) ∧
    (r.tnum < 10 ^ 11 → (sprintf011 r.tnum).length = 11) := by
  obtain ⟨hw, hj, hq, hms, _, _, hpos, _⟩ :=
    emitAt_emit w maxReadLen q1 tnum seq j r hemit
  have hpz : ((r.pos : ℤ)) = (j : ℤ) - w + 1 := by
    rw [hpos]
    omega
  refine ⟨?_, posFieldOf_renderHit r, fun h => itoa_headI r.pos h, ?_⟩
  · rw [hpz, show (j : ℤ) - w + 1 + w = (j : ℤ) + 1 by ring]
    exact hms
  · intro hlt
    unfold sprintf011
    have := itoa_length_le_11 r.tnum hlt
    simp only [List.length_append, List.length_replicate]
    omega

def c8hitA : ScreenRec := ⟨[65, 67], [71], [84], 7, 5⟩

def c8hitB : ScreenRec := ⟨[65, 67], [71], [84], 7, 123⟩

/-- **C8** counterexample: positions 5 and 123 are rendered as the
bare decimals `5` and `123` — fields of different widths with no
leading zeros — so the position field is not a zero-padded decimal. -/
theorem c8_counterexample :
    posFieldOf (renderHit c8hitA) = [53] ∧
    posFieldOf (renderHit c8hitB) = [49, 50, 51] ∧
    (posFieldOf (renderHit c8hitA)).length ≠
      (posFieldOf (renderHit c8hitB)).length ∧
    (posFieldOf (renderHit c8hitA)).headI ≠ 48 := by decide

def c8hitC : ScreenRec := ⟨[70, 71, 72, 73], [68, 69], [74, 75, 76, 77], 0, 5⟩

/-- Witness for the amended C8 at a concrete emitted hit. -/
theorem c8_position_encoding_witness :
    gslice c3seq (c8hitC.pos : ℤ) ((c8hitC.pos : ℤ) + 4) = some c8hitC.mseq ∧
    posFieldOf (renderHit c8hitC) = itoa c8hitC.pos ∧
    (0 < c8hitC.pos → (itoa c8hitC.pos).headI ≠ 48) ∧
    (c8hitC.tnum < 10 ^ 11 → (sprintf011 c8hitC.tnum).length = 11) :=
  c8_position_encoding 4 10 2 0 c3seq 8 c8hitC (by decide)

/-- **C10**.  For a pair joined by the verifier at window offset `q`:
the windowed read record's left tail and the candidate hit's left pad
both have length exactly `q`; after the `|trgt| ≥ |rrgt|` guard the
compared right segments have equal length; hence both `cdiff` calls of
`searchpairs` stay in bounds (return a value rather than panicking). -/
theorem c10_cdiff_in_bounds (w maxReadLen q1 minDinuc tnum : Nat)
    (rseq tseq : List Nat) (j : Nat) (wr : WindowRec) (sr : ScreenRec)
    (hwr : windowRead w q1 minDinuc rseq = some wr)
    (hsr : emitAt w maxReadLen q1 tnum tseq j = some sr) :
    wr.left.length = q1 ∧ sr.left.length = q1 ∧
    (cdiff sr.left wr.left).isSome ∧
    (wr.rightT.length ≤ sr.right.length →
      (sr.right.take wr.rightT.length).length = wr.rightT.length ∧
      (cdiff (sr.right.take wr.rightT.length) wr.rightT).isSome) := by
  obtain ⟨hw, hj, hq, _, hlf, _, _, _⟩ :=
    emitAt_emit w maxReadLen q1 tnum tseq j sr hsr
  have hsl : sr.left.length = q1 := by
    have := gslice_length tseq _ _ _ hlf
    omega
  unfold windowRead at hwr
  by_cases h1 : rseq.length < q1 + w
  · rw [if_pos h1] at hwr
    exact absurd hwr (by simp)
  · rw [if_neg h1] at hwr
    by_cases h2 : countDinuc ((rseq.drop q1).take w) < minDinuc
    · rw [if_pos h2] at hwr
      exact absurd hwr (by simp)
    · rw [if_neg h2] at hwr
      have hwrv := Option.some.inj hwr
      have hwl : wr.left.length = q1 := by
        rw [← hwrv]
        simp only [List.length_take]
        omega
      refine ⟨hwl, hsl, ?_, ?_⟩
      · exact cdiff_isSome sr.left wr.left (by omega)
      · intro hle
        have htk : (sr.right.take wr.rightT.length).length =
            wr.rightT.length := by
          simp only [List.length_take]
          omega
        exact ⟨htk, cdiff_isSome _ _ (le_of_eq htk)⟩

def c10read : List Nat := [65, 84, 71, 67, 65, 84, 71, 67]

def c10wr : WindowRec := ⟨[71, 67, 65, 84], [65, 84], [71, 67]⟩

/-- Witness for C10 at a concrete joined pair. -/
theorem c10_cdiff_in_bounds_witness :
    c10wr.left.length = 2 ∧ c8hitC.left.length = 2 ∧
    (cdiff c8hitC.left c10wr.left).isSome ∧
    (c10wr.rightT.length ≤ c8hitC.right.length →
      (c8hitC.right.take c10wr.rightT.length).length =
        c10wr.rightT.length ∧
      (cdiff (c8hitC.right.take c10wr.rightT.length) c10wr.rightT).isSome) :=
  c10_cdiff_in_bounds 4 10 2 0 0 c10read c3seq 8 c10wr c8hitC
    (by decide) (by decide)

theorem compareBytes_eq_iff : ∀ a b : List Nat,
    compareBytes a b = .eq ↔ a = b := by
  intro a
  induction a with
  | nil =>
    intro b
    cases b <;> simp [compareBytes]
  | cons x xs ih =>
    intro b
    cases b with
    | nil => simp [compareBytes]
    | cons y ys =>
      by_cases hxy : x < y
      · simp [compareBytes, hxy]
        omega
      · by_cases hyx : y < x
        · simp [compareBytes, hxy, hyx]
          omega
        · have hxy2 : x = y := by omega
          simp [compareBytes, hxy, hyx, hxy2, ih ys]

theorem compareBytes_gt_iff_lt : ∀ a b : List Nat,
    compareBytes a b = .gt ↔ compareBytes b a = .lt := by
  intro a
  induction a with
  | nil =>
    intro b
    cases b <;> simp [compareBytes]
  | cons x xs ih =>
    intro b
    cases b with
    | nil => simp [compareBytes]
    | cons y ys =>
      by_cases hxy : x < y
      · simp [compareBytes, hxy, (by omega : ¬ y < x)]
        omega
      · by_cases hyx : y < x
        · simp [compareBytes, hxy, hyx]
        · simp [compareBytes, hxy, hyx, ih ys]

theorem lexLe_total : ∀ a b : List Nat, LexLe a b ∨ LexLe b a := by
  intro a b
  unfold LexLe lexLe
  rcases hab : compareBytes a b with _ | _ | _
  · left
    rfl
  · left
    rfl
  · right
    have h2 := (compareBytes_gt_iff_lt a b).mp hab
    rw [h2]
    rfl

theorem compareBytes_trans_ngt : ∀ a b c : List Nat,
    compareBytes a b ≠ .gt → compareBytes b c ≠ .gt →
    compareBytes a c ≠ .gt := by
  intro a
  induction a with
  | nil =>
    intro b c _ _
    cases c <;> simp [compareBytes]
  | cons x xs ih =>
    intro b c h1 h2
    cases b with
    | nil => simp [compareBytes] at h1
    | cons y ys =>
      cases c with
      | nil => simp [compareBytes] at h2
      | cons z zs =>
        simp only [compareBytes] at h1 h2 ⊢
        by_cases hxy : x < y
        · simp only [hxy, if_true] at h1
          by_cases hyz : y < z
          · have hxz : x < z := by omega
            simp [hxz]
          · by_cases hzy : z < y
            · simp [hyz, hzy] at h2
            · have hyz2 : y = z := by omega
              have hxz : x < z := by omega
              simp [hxz]
        · by_cases hyx : y < x
          · simp [hxy, hyx] at h1
          · have hxy2 : x = y := by omega
            simp only [hxy, if_false, hyx] at h1
            by_cases hyz : y < z
            · have hxz : x < z := by omega
              simp [hxz]
            · by_cases hzy : z < y
              · simp [hyz, hzy] at h2
              · have hyz2 : y = z := by omega
                have hxz : ¬ x < z := by omega
                have hzx : ¬ z < x := by omega
                simp only [hxz, if_false, hzx]
                simp only [hyz, if_false, hzy] at h2
                exact ih ys zs h1 h2

theorem lexLe_trans : ∀ a b c : List Nat,
    LexLe a b → LexLe b c → LexLe a c := by
  intro a b c h1 h2
  unfold LexLe lexLe at h1 h2 ⊢
  have h1x : compareBytes a b ≠ .gt := by
    intro hx
    rw [hx] at h1
    exact absurd h1 (by decide)
  have h2x : compareBytes b c ≠ .gt := by
    intro hx
    rw [hx] at h2
    exact absurd h2 (by decide)
  have h3 := compareBytes_trans_ngt a b c h1x h2x
  rcases hac : compareBytes a c with _ | _ | _
  · rfl
  · rfl
  · exact absurd hac h3

theorem sortUniq_sorted (ls : List (List Nat)) :
    List.Sorted LexLe (sortUniq ls) := by
  unfold sortUniq
  refine List.Pairwise.sublist (List.dedup_sublist _) ?_
  exact @List.sorted_insertionSort (List Nat) LexLe _
    ⟨lexLe_total⟩ ⟨fun a b c => lexLe_trans a b c⟩ ls

theorem sortUniq_nodup (ls : List (List Nat)) : (sortUniq ls).Nodup :=
  List.nodup_dedup _

theorem sortUniq_eq_self (ls : List (List Nat))
    (hs : List.Sorted LexLe ls) (hn : ls.Nodup) : sortUniq ls = ls := by
  unfold sortUniq
  rw [List.Sorted.insertionSort_eq hs, List.dedup_eq_self.mpr hn]

theorem sortUniq_mem (ls : List (List Nat)) (l : List Nat) :
    l ∈ sortUniq ls ↔ l ∈ ls := by
  unfold sortUniq
  rw [List.mem_dedup, List.mem_insertionSort]

theorem bestFold_spec : ∀ (ys : List Nat) (b : ℤ), 0 ≤ b →
    (bestFold b ys = b ∨ ∃ y ∈ ys, bestFold b ys = (y : ℤ)) ∧
    bestFold b ys ≤ b ∧ ∀ y ∈ ys, bestFold b ys ≤ (y : ℤ) := by
  intro ys
  induction ys with
  | nil =>
    intro b _
    refine ⟨Or.inl rfl, le_refl _, ?_⟩
    intro y hy
    simp at hy
  | cons y0 ys ih =>
    intro b hb
    have hstep : bestFold b (y0 :: ys) =
        bestFold (if b = -1 ∨ (y0 : ℤ) < b then (y0 : ℤ) else b) ys := by
      rfl
    by_cases hc : b = -1 ∨ (y0 : ℤ) < b
    · rw [hstep, if_pos hc]
      obtain ⟨hm, hle, hall⟩ := ih (y0 : ℤ) (by positivity)
      refine ⟨?_, ?_, ?_⟩
      · rcases hm with hm | ⟨y, hy, hm⟩
        · exact Or.inr ⟨y0, by simp, hm⟩
        · exact Or.inr ⟨y, by simp [hy], hm⟩
      · rcases hc with hc | hc
        · omega
        · omega
      · intro y hy
        rcases List.mem_cons.mp hy with hy | hy
        · rw [hy]
          exact hle
        · exact hall y hy
    · rw [hstep, if_neg hc]
      obtain ⟨hm, hle, hall⟩ := ih b hb
      refine ⟨?_, hle, ?_⟩
      · rcases hm with hm | ⟨y, hy, hm⟩
        · exact Or.inl hm
        · exact Or.inr ⟨y, by simp [hy], hm⟩
      · intro y hy
        rcases List.mem_cons.mp hy with hy | hy
        · push_neg at hc
          rw [hy]
          omega
        · exact hall y hy

theorem computeBest_spec (ys : List Nat) (hne : ys ≠ []) :
    (∃ y ∈ ys, computeBest ys = (y : ℤ)) ∧
    ∀ y ∈ ys, computeBest ys ≤ (y : ℤ) := by
  cases ys with
  | nil => exact absurd rfl hne
  | cons y0 ys =>
    have hstep : computeBest (y0 :: ys) = bestFold (y0 : ℤ) ys := by
      unfold computeBest
      show bestFold (if (-1 : ℤ) = -1 ∨ (y0 : ℤ) < -1 then (y0 : ℤ) else -1) ys
        = _
      rw [if_pos (Or.inl rfl)]
    obtain ⟨hm, hle, hall⟩ := bestFold_spec ys (y0 : ℤ) (by positivity)
    rw [hstep]
    refine ⟨?_, ?_⟩
    · rcases hm with hm | ⟨y, hy, hm⟩
      · exact ⟨y0, by simp, hm⟩
      · exact ⟨y, by simp [hy], hm⟩
    · intro y hy
      rcases List.mem_cons.mp hy with hy | hy
      · rw [hy]
        exact hle
      · exact hall y hy

theorem computeBest_nonneg (ys : List Nat) (hne : ys ≠ []) :
    0 ≤ computeBest ys := by
  obtain ⟨⟨y, _, hy⟩, _⟩ := computeBest_spec ys hne
  rw [hy]
  positivity

theorem parseAll_length : ∀ (r : List (List Nat)) (ys : List Nat),
    parseAll r = some ys → ys.length = r.length := by
  intro r
  induction r with
  | nil =>
    intro ys h
    cases h
    rfl
  | cons l rest ih =>
    intro ys h
    rw [parseAll] at h
    rcases hy : nmissOf l with _ | y
    · rw [hy] at h
      exact absurd h (by simp)
    · rw [hy, Option.some_bind] at h
      rcases hys : parseAll rest with _ | ys'
      · rw [hys] at h
        exact absurd h (by simp)
      · rw [hys] at h
        have := Option.some.inj h
        rw [← this]
        simp [ih ys' hys]

theorem parseAll_zip_mem : ∀ (r : List (List Nat)) (ys : List Nat),
    parseAll r = some ys → ∀ p ∈ r.zip ys, nmissOf p.1 = some p.2 := by
  intro r
  induction r with
  | nil =>
    intro ys h p hp
    simp [List.zip] at hp
  | cons l rest ih =>
    intro ys h p hp
    rw [parseAll] at h
    rcases hy : nmissOf l with _ | y
    · rw [hy] at h
      exact absurd h (by simp)
    · rw [hy, Option.some_bind] at h
      rcases hys : parseAll rest with _ | ys'
      · rw [hys] at h
        exact absurd h (by simp)
      · rw [hys] at h
        have hh := Option.some.inj h
        rw [← hh] at hp
        rcases List.mem_cons.mp hp with hp | hp
        · rw [hp]
          exact hy
        · exact ih ys' hys p hp

theorem parseAll_pair_mem : ∀ (r : List (List Nat)) (ys : List Nat),
    parseAll r = some ys → ∀ l ∈ r, ∀ y, nmissOf l = some y →
    (l, y) ∈ r.zip ys := by
  intro r
  induction r with
  | nil =>
    intro ys _ l hl
    simp at hl
  | cons l0 rest ih =>
    intro ys h l hl y hy
    rw [parseAll] at h
    rcases hy0 : nmissOf l0 with _ | y0
    · rw [hy0] at h
      exact absurd h (by simp)
    · rw [hy0, Option.some_bind] at h
      rcases hys : parseAll rest with _ | ys'
      · rw [hys] at h
        exact absurd h (by simp)
      · rw [hys] at h
        have hh := Option.some.inj h
        rw [← hh]
        rcases List.mem_cons.mp hl with hl | hl
        · rw [hl] at hy
          rw [hy0] at hy
          have : y0 = y := Option.some.inj hy
          rw [hl, ← this]
          simp [List.zip_cons_cons]
        · have := ih ys' hys l hl y hy
          simp [List.zip_cons_cons, this]

theorem parseAll_of_pairs : ∀ (ps : List (List Nat × Nat)),
    (∀ p ∈ ps, nmissOf p.1 = some p.2) →
    parseAll (ps.map Prod.fst) = some (ps.map Prod.snd) := by
  intro ps
  induction ps with
  | nil =>
    intro _
    rfl
  | cons p ps ih =>
    intro h
    simp only [List.map_cons, parseAll]
    rw [h p (by simp), Option.some_bind, ih fun q hq => h q (by simp [hq])]
    rfl

theorem writebest_elim (mmtol : ℤ) (block o : List (List Nat))
    (h : writebest mmtol block = some o) :
    ∃ ys, parseAll block = some ys ∧
      o = ((block.zip ys).filter fun ly =>
        ((ly.2 : ℤ) ≤ computeBest ys + mmtol)).map Prod.fst := by
  unfold writebest at h
  rcases hys : parseAll block with _ | ys
  · rw [hys] at h
    exact absurd h (by simp)
  · rw [hys] at h
    exact ⟨ys, rfl, (Option.some.inj h).symm⟩

theorem writebest_sublist (mmtol : ℤ) (block o : List (List Nat))
    (h : writebest mmtol block = some o) : o.Sublist block := by
  obtain ⟨ys, hys, ho⟩ := writebest_elim mmtol block o h
  rw [ho]
  have h1 : (((block.zip ys).filter fun ly =>
      ((ly.2 : ℤ) ≤ computeBest ys + mmtol)).map Prod.fst).Sublist
      ((block.zip ys).map Prod.fst) :=
    List.Sublist.map Prod.fst (List.filter_sublist _)
  have h2 : (block.zip ys).map Prod.fst = block := by
    apply List.map_fst_zip
    rw [parseAll_length block ys hys]
  rw [h2] at h1
  exact h1

theorem writebest_mem_le (mmtol : ℤ) (block o : List (List Nat))
    (h : writebest mmtol block = some o) :
    ∀ l ∈ o, ∃ ys, parseAll block = some ys ∧
      ∃ y : Nat, nmissOf l = some y ∧
        (y : ℤ) ≤ computeBest ys + mmtol := by
  obtain ⟨ys, hys, ho⟩ := writebest_elim mmtol block o h
  intro l hl
  rw [ho] at hl
  obtain ⟨p, hp, hpl⟩ := List.mem_map.mp hl
  have hpz := List.mem_filter.mp hp
  refine ⟨ys, hys, p.2, ?_, ?_⟩
  · rw [← hpl]
    exact parseAll_zip_mem block ys hys p hpz.1
  · have := hpz.2
    simpa using this

theorem writebest_complete (mmtol : ℤ) (block o : List (List Nat))
    (h : writebest mmtol block = some o)
    (l : List Nat) (y : Nat) (ys : List Nat)
    (hys : parseAll block = some ys)
    (hl : l ∈ block) (hy : nmissOf l = some y)
    (hcond : (y : ℤ) ≤ computeBest ys + mmtol) : l ∈ o := by
  obtain ⟨ys2, hys2, ho⟩ := writebest_elim mmtol block o h
  rw [hys] at hys2
  have hyseq : ys = ys2 := Option.some.inj hys2
  rw [← hyseq] at ho
  rw [ho]
  apply List.mem_map.mpr
  refine ⟨(l, y), ?_, rfl⟩
  apply List.mem_filter.mpr
  refine ⟨parseAll_pair_mem block ys hys l hl y hy, by simpa using hcond⟩

theorem writebest_min_mem (mmtol : ℤ) (block o : List (List Nat))
    (h0 : 0 ≤ mmtol) (hne : block ≠ [])
    (h : writebest mmtol block = some o) :
    ∃ ys, parseAll block = some ys ∧
      ∃ m ∈ o, ∃ b : Nat, nmissOf m = some b ∧
        (b : ℤ) = computeBest ys := by
  obtain ⟨ys, hys, ho⟩ := writebest_elim mmtol block o h
  have hlen := parseAll_length block ys hys
  have hysne : ys ≠ [] := by
    intro hnil
    rw [hnil] at hlen
    simp at hlen
    exact hne (List.length_eq_zero.mp hlen.symm)
  obtain ⟨⟨y, hyin, hcb⟩, _⟩ := computeBest_spec ys hysne
  have hsnd : (block.zip ys).map Prod.snd = ys :=
    List.map_snd_zip block ys (le_of_eq hlen)
  have hyin2 : y ∈ (block.zip ys).map Prod.snd := by
    rw [hsnd]
    exact hyin
  obtain ⟨p, hp, hpy⟩ := List.mem_map.mp hyin2
  have hnm : nmissOf p.1 = some p.2 := parseAll_zip_mem block ys hys p hp
  refine ⟨ys, hys, p.1, ?_, p.2, hnm, ?_⟩
  · rw [ho]
    apply List.mem_map.mpr
    refine ⟨p, List.mem_filter.mpr ⟨hp, ?_⟩, rfl⟩
    have : ((p.2 : Nat) : ℤ) = computeBest ys := by
      rw [hpy, hcb]
    simp only [decide_eq_true_eq]
    omega
  · rw [hpy, hcb]

theorem runsOf_join : ∀ (n : Nat) (ls : List (List Nat)), ls.length ≤ n →
    (runsOf ls).flatten = ls := by
  intro n
  induction n with
  | zero =>
    intro ls h
    have hz : ls = [] := List.length_eq_zero.mp (by omega)
    rw [hz, runsOf]
    rfl
  | succ n ih =>
    intro ls h
    cases ls with
    | nil =>
      rw [runsOf]
      rfl
    | cons l rest =>
      rw [runsOf]
      simp only [List.flatten_cons]
      have hs : (rest.dropWhile fun x => decide (keyD x = keyD l)).Sublist
          rest := List.dropWhile_sublist _
      have hlen := hs.length_le
      simp only [List.length_cons] at h
      rw [ih _ (by omega)]
      simp [List.takeWhile_append_dropWhile]

theorem runsOf_ne_nil : ∀ (n : Nat) (ls : List (List Nat)), ls.length ≤ n →
    ∀ r ∈ runsOf ls, r ≠ [] := by
  intro n
  induction n with
  | zero =>
    intro ls h r hr
    have hz : ls = [] := List.length_eq_zero.mp (by omega)
    rw [hz] at hr
    simp [runsOf] at hr
  | succ n ih =>
    intro ls h r hr
    cases ls with
    | nil => simp [runsOf] at hr
    | cons l rest =>
      rw [runsOf] at hr
      rcases List.mem_cons.mp hr with hr | hr
      · rw [hr]
        simp
      · have hs : (rest.dropWhile fun x => decide (keyD x = keyD l)).Sublist
            rest := List.dropWhile_sublist _
        have hlen := hs.length_le
        simp only [List.length_cons] at h
        exact ih _ (by omega) r hr

theorem runsOf_uniform : ∀ (n : Nat) (ls : List (List Nat)), ls.length ≤ n →
    ∀ r ∈ runsOf ls, ∀ x ∈ r, keyD x = keyD r.headI := by
  intro n
  induction n with
  | zero =>
    intro ls h r hr
    have hz : ls = [] := List.length_eq_zero.mp (by omega)
    rw [hz] at hr
    simp [runsOf] at hr
  | succ n ih =>
    intro ls h r hr x hx
    cases ls with
    | nil => simp [runsOf] at hr
    | cons l rest =>
      rw [runsOf] at hr
      rcases List.mem_cons.mp hr with hr | hr
      · rw [hr] at hx ⊢
        simp only [List.headI]
        rcases List.mem_cons.mp hx with hx | hx
        · rw [hx]
        · have := List.mem_takeWhile_imp hx
          simpa using this
      · have hs : (rest.dropWhile fun x => decide (keyD x = keyD l)).Sublist
            rest := List.dropWhile_sublist _
        have hlen := hs.length_le
        simp only [List.length_cons] at h
        exact ih _ (by omega) r hr x hx

theorem runsOf_subset (ls : List (List Nat)) (r : List (List Nat))
    (hr : r ∈ runsOf ls) (x : List Nat) (hx : x ∈ r) : x ∈ ls := by
  have hj := runsOf_join ls.length ls (le_refl _)
  rw [← hj]
  exact List.mem_flatten.mpr ⟨r, hr, hx⟩

theorem contig_runs_pairwise : ∀ (n : Nat) (ls : List (List Nat)),
    ls.length ≤ n → contigKeys ls = true →
    (runsOf ls).Pairwise fun r1 r2 => keyD r1.headI ≠ keyD r2.headI := by
  intro n
  induction n with
  | zero =>
    intro ls h _
    have hz : ls = [] := List.length_eq_zero.mp (by omega)
    rw [hz]
    simp [runsOf]
  | succ n ih =>
    intro ls h hc
    cases ls with
    | nil => simp [runsOf]
    | cons l rest =>
      rw [contigKeys] at hc
      simp only [Bool.and_eq_true, decide_eq_true_eq] at hc
      obtain ⟨hall, hrec⟩ := hc
      rw [runsOf]
      have hs : (rest.dropWhile fun x => decide (keyD x = keyD l)).Sublist
          rest := List.dropWhile_sublist _
      have hlen := hs.length_le
      simp only [List.length_cons] at h
      refine List.Pairwise.cons ?_ (ih _ (by omega) hrec)
      intro r' hr'
      have hrne := runsOf_ne_nil
        (rest.dropWhile fun x => decide (keyD x = keyD l)).length _
        (le_refl _) r' hr'
      have hhead : r'.headI ∈ r' := by
        cases r' with
        | nil => exact absurd rfl hrne
        | cons a as => simp [List.headI]
      have hmem := runsOf_subset _ r' hr' r'.headI hhead
      have := hall r'.headI hmem
      simp only [List.headI]
      exact fun hkk => this hkk.symm

theorem combLoop_invariant (mmtol : ℤ) :
    ∀ (rest block : List (List Nat)) (k : List Nat),
    block ≠ [] → (∀ l ∈ block, keyOf l = some k) →
    (∀ l ∈ rest, (keyOf l).isSome) →
    combLoop mmtol (some k) block rest =
      (writebest mmtol (block ++ rest.takeWhile fun x => keyD x = k)).bind
        fun o1 =>
          (combRuns mmtol
            (runsOf (rest.dropWhile fun x => keyD x = k))).map
            fun os => o1 ++ os := by
  intro rest
  induction rest with
  | nil =>
    intro block k _ _ _
    rw [combLoop]
    simp only [List.takeWhile_nil, List.dropWhile_nil, List.append_nil]
    rw [runsOf]
    rcases hw : writebest mmtol block with _ | o
    · rfl
    · simp [combRuns]
  | cons l rest ih =>
    intro block k hbne hbk hwf
    have hkl : (keyOf l).isSome := hwf l (by simp)
    rcases hk' : keyOf l with _ | k'
    · rw [hk'] at hkl
      simp at hkl
    · rw [combLoop, hk', Option.some_bind]
      have hkd : keyD l = k' := by
        unfold keyD
        rw [hk']
        rfl
      by_cases heq : k = k'
      · subst heq
        rw [if_pos (Or.inr rfl)]
        have hbk2 : ∀ x ∈ block ++ [l], keyOf x = some k := by
          intro x hx
          rcases List.mem_append.mp hx with hxx | hxx
          · exact hbk x hxx
          · simp only [List.mem_singleton] at hxx
            rw [hxx]
            exact hk'
        have hwf2 : ∀ x ∈ rest, (keyOf x).isSome := fun x hx =>
          hwf x (by simp [hx])
        have hstep := ih (block ++ [l]) k (by simp) hbk2 hwf2
        rw [hstep]
        have htw : List.takeWhile (fun x => decide (keyD x = k)) (l :: rest)
            = l :: List.takeWhile (fun x => decide (keyD x = k)) rest := by
          rw [List.takeWhile_cons, if_pos (by simp [hkd])]
        have hdw : List.dropWhile (fun x => decide (keyD x = k)) (l :: rest)
            = List.dropWhile (fun x => decide (keyD x = k)) rest := by
          rw [List.dropWhile_cons]
          rw [if_pos (by simp [hkd])]
        rw [htw, hdw]
        rw [show block ++ l :: List.takeWhile
            (fun x => decide (keyD x = k)) rest
            = (block ++ [l]) ++ List.takeWhile
              (fun x => decide (keyD x = k)) rest by simp]
      · rw [if_neg (by simp [heq])]
        have htw : List.takeWhile (fun x => decide (keyD x = k)) (l :: rest)
            = [] := by
          rw [List.takeWhile_cons,
            if_neg (by simp only [hkd, decide_eq_true_eq]; exact fun hx => heq hx.symm)]
        have hdw : List.dropWhile (fun x => decide (keyD x = k)) (l :: rest)
            = l :: rest := by
          rw [List.dropWhile_cons,
            if_neg (by simp only [hkd, decide_eq_true_eq]; exact fun hx => heq hx.symm)]
        rw [htw, hdw, List.append_nil]
        have hwf2 : ∀ x ∈ rest, (keyOf x).isSome := fun x hx =>
          hwf x (by simp [hx])
        have hsingle := ih [l] k' (by simp) ?hbk3 hwf2
        case hbk3 =>
          intro x hx
          simp only [List.mem_singleton] at hx
          rw [hx]
          exact hk'
        have hruns : runsOf (l :: rest) =
            (l :: List.takeWhile (fun x => decide (keyD x = k')) rest) ::
              runsOf (List.dropWhile (fun x => decide (keyD x = k')) rest)
            := by
          rw [runsOf]
          simp [hkd]
        rw [hruns]
        rw [show combRuns mmtol
            ((l :: List.takeWhile (fun x => decide (keyD x = k')) rest) ::
              runsOf (List.dropWhile (fun x => decide (keyD x = k')) rest))
            = (writebest mmtol
                (l :: List.takeWhile (fun x => decide (keyD x = k')) rest)).bind
                fun o =>
                  (combRuns mmtol (runsOf (List.dropWhile
                    (fun x => decide (keyD x = k')) rest))).map
                    fun os => o ++ os from rfl]
        rw [hsingle]
        simp only [List.singleton_append]

theorem combineStream_eq_combRuns (mmtol : ℤ) (ls : List (List Nat))
    (hwf : ∀ l ∈ ls, (keyOf l).isSome) :
    combineStream mmtol ls = combRuns mmtol (runsOf ls) := by
  cases ls with
  | nil =>
    unfold combineStream
    rw [combLoop, runsOf]
    rfl
  | cons l rest =>
    have hkl : (keyOf l).isSome := hwf l (by simp)
    rcases hk' : keyOf l with _ | k'
    · rw [hk'] at hkl
      simp at hkl
    · have hkd : keyD l = k' := by
        unfold keyD
        rw [hk']
        rfl
      unfold combineStream
      rw [combLoop, hk', Option.some_bind, if_pos (Or.inl rfl)]
      have hwf2 : ∀ x ∈ rest, (keyOf x).isSome := fun x hx =>
        hwf x (by simp [hx])
      have hbk3 : ∀ x ∈ [l], keyOf x = some k' := by
        intro x hx
        simp only [List.mem_singleton] at hx
        rw [hx]
        exact hk'
      have hsingle := combLoop_invariant mmtol rest [l] k' (by simp) hbk3 hwf2
      rw [show ([] : List (List Nat)) ++ [l] = [l] from rfl, hsingle]
      have hruns : runsOf (l :: rest) =
          (l :: List.takeWhile (fun x => decide (keyD x = k')) rest) ::
            runsOf (List.dropWhile (fun x => decide (keyD x = k')) rest) := by
        rw [runsOf]
        simp [hkd]
      rw [hruns]
      rw [show combRuns mmtol
          ((l :: List.takeWhile (fun x => decide (keyD x = k')) rest) ::
            runsOf (List.dropWhile (fun x => decide (keyD x = k')) rest)) =
          (writebest mmtol
            (l :: List.takeWhile (fun x => decide (keyD x = k')) rest)).bind
            fun o =>
              (combRuns mmtol (runsOf (List.dropWhile
                (fun x => decide (keyD x = k')) rest))).map
                fun os => o ++ os from rfl]
      simp only [List.singleton_append]

theorem combRuns_mem_elim (mmtol : ℤ) :
    ∀ (runs : List (List (List Nat))) (out : List (List Nat)),
    combRuns mmtol runs = some out →
    ∀ l ∈ out, ∃ r o, r ∈ runs ∧ writebest mmtol r = some o ∧ l ∈ o := by
  intro runs
  induction runs with
  | nil =>
    intro out h l hl
    cases h
    simp at hl
  | cons r rs ih =>
    intro out h l hl
    rw [combRuns] at h
    rcases hw : writebest mmtol r with _ | o
    · rw [hw] at h
      exact absurd h (by simp)
    · rw [hw, Option.some_bind] at h
      rcases hc : combRuns mmtol rs with _ | os
      · rw [hc] at h
        exact absurd h (by simp)
      · rw [hc] at h
        have hh := Option.some.inj h
        rw [← hh] at hl
        rcases List.mem_append.mp hl with hl | hl
        · exact ⟨r, o, by simp, hw, hl⟩
        · obtain ⟨r2, o2, hr2, hw2, hl2⟩ := ih os hc l hl
          exact ⟨r2, o2, by simp [hr2], hw2, hl2⟩

theorem combRuns_sub (mmtol : ℤ) :
    ∀ (runs : List (List (List Nat))) (out : List (List Nat)),
    combRuns mmtol runs = some out →
    ∀ r ∈ runs, ∀ o, writebest mmtol r = some o → ∀ x ∈ o, x ∈ out := by
  intro runs
  induction runs with
  | nil =>
    intro out _ r hr
    simp at hr
  | cons r0 rs ih =>
    intro out h r hr o hwo x hx
    rw [combRuns] at h
    rcases hw : writebest mmtol r0 with _ | o0
    · rw [hw] at h
      exact absurd h (by simp)
    · rw [hw, Option.some_bind] at h
      rcases hc : combRuns mmtol rs with _ | os
      · rw [hc] at h
        exact absurd h (by simp)
      · rw [hc] at h
        have hh := Option.some.inj h
        rw [← hh]
        rcases List.mem_cons.mp hr with hr | hr
        · rw [← hr] at hw
          rw [hwo] at hw
          have : o0 = o := (Option.some.inj hw).symm
          rw [← this] at hx
          exact List.mem_append.mpr (Or.inl hx)
        · exact List.mem_append.mpr (Or.inr (ih os hc r hr o hwo x hx))

/-- **C5**.  Final-output mismatch tolerance: in the consolidation
filter applied to a stream with contiguous equal keys (as the upstream
unique-sort guarantees), every emitted record's mismatch count is at
most `readMin + MMTol`, where `readMin` — realised by an emitted
record `m` — is the minimum mismatch count of the read's group; and
within each group exactly the records with `nmiss ≤ readMin + MMTol`
are written. -/
theorem c5_final_mmtol (mmtol : ℤ) (ls out : List (List Nat))
    (h0 : 0 ≤ mmtol)
    (hwf : ∀ l ∈ ls, (keyOf l).isSome)
    (hgrp : contigKeys ls = true)
    (h : combineStream mmtol ls = some out) :
    ∀ l ∈ out, ∃ m, m ∈ out ∧ keyD m = keyD l ∧
      ∃ ym : Nat, nmissOf m = some ym ∧
      (∀ l2 ∈ ls, keyD l2 = keyD l → ∀ y2 : Nat, nmissOf l2 = some y2 →
        ym ≤ y2 ∧ ((y2 : ℤ) ≤ (ym : ℤ) + mmtol ↔ l2 ∈ out)) ∧
      (∀ yl : Nat, nmissOf l = some yl → (yl : ℤ) ≤ (ym : ℤ) + mmtol) := by
  rw [combineStream_eq_combRuns mmtol ls hwf] at h
  have hpw := contig_runs_pairwise ls.length ls (le_refl _) hgrp
  have hsym : Symmetric fun r1 r2 : List (List Nat) =>
      keyD r1.headI ≠ keyD r2.headI := fun a b hab => hab.symm
  intro l hl
  obtain ⟨r, o, hrin, hwo, hlo⟩ := combRuns_mem_elim mmtol _ out h l hl
  have hrne : r ≠ [] := runsOf_ne_nil ls.length ls (le_refl _) r hrin
  obtain ⟨ys, hys, m, hmo, b, hmb, hbeq⟩ :=
    writebest_min_mem mmtol r o h0 hrne hwo
  have hysne : ys ≠ [] := by
    intro hnil
    rw [hnil] at hys
    have := parseAll_length r [] hys
    simp at this
    exact hrne (List.length_eq_zero.mp this.symm)
  have hsub := writebest_sublist mmtol r o hwo
  have hmr : m ∈ r := hsub.subset hmo
  have hlr : l ∈ r := hsub.subset hlo
  have hmout : m ∈ out := combRuns_sub mmtol _ out h r hrin o hwo m hmo
  have hukey := runsOf_uniform ls.length ls (le_refl _) r hrin
  have hkey_ml : keyD m = keyD l := by
    rw [hukey m hmr, hukey l hlr]
  have hl2r : ∀ l2 ∈ ls, keyD l2 = keyD l → l2 ∈ r := by
    intro l2 hl2 hk2
    have hjoin := runsOf_join ls.length ls (le_refl _)
    rw [← hjoin] at hl2
    obtain ⟨r2, hr2, hl2r2⟩ := List.mem_flatten.mp hl2
    have hkeq : keyD r2.headI = keyD r.headI := by
      rw [← runsOf_uniform ls.length ls (le_refl _) r2 hr2 l2 hl2r2, hk2,
        hukey l hlr]
    by_cases hrr : r2 = r
    · rw [← hrr]
      exact hl2r2
    · exact absurd hkeq (List.Pairwise.forall hsym hpw hr2 hrin hrr)
  have hout_iff : ∀ l2 ∈ r, ∀ y2 : Nat, nmissOf l2 = some y2 →
      ((y2 : ℤ) ≤ (b : ℤ) + mmtol ↔ l2 ∈ out) := by
    intro l2 hl2 y2 hy2
    constructor
    · intro hcond
      have hcond2 : (y2 : ℤ) ≤ computeBest ys + mmtol := by
        rw [← hbeq]
        exact hcond
      have hino := writebest_complete mmtol r o hwo l2 y2 ys hys hl2 hy2 hcond2
      exact combRuns_sub mmtol _ out h r hrin o hwo l2 hino
    · intro hl2out
      obtain ⟨r2, o2, hr2in, hw2, hl2o2⟩ :=
        combRuns_mem_elim mmtol _ out h l2 hl2out
      have hl2r2 : l2 ∈ r2 := (writebest_sublist mmtol r2 o2 hw2).subset hl2o2
      have hk2 : keyD r2.headI = keyD r.headI := by
        rw [← runsOf_uniform ls.length ls (le_refl _) r2 hr2in l2 hl2r2,
          ← hukey l2 hl2]
      have hrr : r2 = r := by
        by_contra hne
        exact absurd hk2 (List.Pairwise.forall hsym hpw hr2in hrin hne)
      rw [hrr, hwo] at hw2
      have ho2 : o2 = o := (Option.some.inj hw2).symm
      rw [ho2] at hl2o2
      obtain ⟨ys2, hys2, y', hy', hle'⟩ :=
        writebest_mem_le mmtol r o hwo l2 hl2o2
      rw [hys] at hys2
      have hyseq : ys2 = ys := (Option.some.inj hys2).symm
      rw [hy2] at hy'
      have hyy : y' = y2 := (Option.some.inj hy').symm
      rw [hyseq, hyy] at hle'
      rw [← hbeq] at hle'
      exact hle'
  refine ⟨m, hmout, hkey_ml, b, hmb, ?_, ?_⟩
  · intro l2 hl2 hk2 y2 hy2
    have hl2r' := hl2r l2 hl2 hk2
    constructor
    · have hpair := parseAll_pair_mem r ys hys l2 hl2r' y2 hy2
      have hy2ys : y2 ∈ ys := (List.of_mem_zip hpair).2
      have hle := (computeBest_spec ys hysne).2 y2 hy2ys
      rw [← hbeq] at hle
      omega
    · exact hout_iff l2 hl2r' y2 hy2
  · intro yl hyl
    exact (hout_iff l hlr yl hyl).mpr hl

def c5line1 : List Nat := [65, 9, 66, 9, 67, 9, 49]

def c5line2 : List Nat := [65, 9, 66, 9, 67, 9, 51]

/-- Witness for C5 on a concrete two-line group with `MMTol = 0`. -/
theorem c5_final_mmtol_witness :
    ∃ m, m ∈ [c5line1] ∧ keyD m = keyD c5line1 ∧
      ∃ ym : Nat, nmissOf m = some ym ∧
      (∀ l2 ∈ [c5line1, c5line2], keyD l2 = keyD c5line1 →
        ∀ y2 : Nat, nmissOf l2 = some y2 →
        ym ≤ y2 ∧ ((y2 : ℤ) ≤ (ym : ℤ) + 0 ↔ l2 ∈ [c5line1])) ∧
      (∀ yl : Nat, nmissOf c5line1 = some yl → (yl : ℤ) ≤ (ym : ℤ) + 0) :=
  c5_final_mmtol 0 [c5line1, c5line2] [c5line1] (by norm_num) (by decide)
    (by simp [contigKeys, keyD, keyOf, fieldsWS, isSpace, c5line1, c5line2])
    (by decide) c5line1 (by simp)

theorem takeWhile_append_all {α : Type} (p : α → Bool) (a b : List α)
    (ha : ∀ x ∈ a, p x = true) :
    (a ++ b).takeWhile p = a ++ b.takeWhile p := by
  induction a with
  | nil => simp
  | cons x xs ih =>
    rw [List.cons_append, List.takeWhile_cons, if_pos (ha x (by simp)),
      ih fun y hy => ha y (by simp [hy])]
    rfl

theorem dropWhile_append_all {α : Type} (p : α → Bool) (a b : List α)
    (ha : ∀ x ∈ a, p x = true) :
    (a ++ b).dropWhile p = b.dropWhile p := by
  induction a with
  | nil => simp
  | cons x xs ih =>
    simp only [List.cons_append, List.dropWhile_cons, ha x (by simp)]
    exact ih fun y hy => ha y (by simp [hy])

theorem takeWhile_nil_of_all {α : Type} (p : α → Bool) (b : List α)
    (hb : ∀ x ∈ b, p x = false) : b.takeWhile p = [] := by
  cases b with
  | nil => rfl
  | cons x xs =>
    simp only [List.takeWhile_cons, hb x (by simp)]
    rfl

theorem dropWhile_self_of_all {α : Type} (p : α → Bool) (b : List α)
    (hb : ∀ x ∈ b, p x = false) : b.dropWhile p = b := by
  cases b with
  | nil => rfl
  | cons x xs =>
    simp only [List.dropWhile_cons, hb x (by simp)]
    rfl

theorem forall2_flatten_mem {α β : Type} (P : α → List β → Prop) :
    ∀ (l1 : List α) (l2 : List (List β)), List.Forall₂ P l1 l2 →
    ∀ y ∈ l2.flatten, ∃ a ∈ l1, ∃ o, P a o ∧ y ∈ o := by
  intro l1 l2 hf
  induction hf with
  | nil =>
    intro y hy
    simp at hy
  | cons hab hf2 ih =>
    intro y hy
    rw [List.flatten_cons] at hy
    rcases List.mem_append.mp hy with hy | hy
    · exact ⟨_, by simp, _, hab, hy⟩
    · obtain ⟨a, ha, o, hP, hyo⟩ := ih y hy
      exact ⟨a, by simp [ha], o, hP, hyo⟩

theorem forall2_strengthen {α β : Type} (P Q : α → β → Prop) :
    ∀ (l1 : List α) (l2 : List β), List.Forall₂ P l1 l2 →
    (∀ a ∈ l1, ∀ b, P a b → Q a b) → List.Forall₂ Q l1 l2 := by
  intro l1 l2 hf
  induction hf with
  | nil =>
    intro _
    exact List.Forall₂.nil
  | cons hab hf2 ih =>
    intro himp
    refine List.Forall₂.cons (himp _ (by simp) _ hab) (ih ?_)
    intro a ha b hP
    exact himp a (by simp [ha]) b hP

theorem forall2_mem_right {α β : Type} (P : α → β → Prop) :
    ∀ (l1 : List α) (l2 : List β), List.Forall₂ P l1 l2 →
    ∀ b ∈ l2, ∃ a ∈ l1, P a b := by
  intro l1 l2 hf
  induction hf with
  | nil =>
    intro b hb
    simp at hb
  | cons hab hf2 ih =>
    intro b hb
    rcases List.mem_cons.mp hb with hb | hb
    · exact ⟨_, by simp, hb ▸ hab⟩
    · obtain ⟨a, ha, hP⟩ := ih b hb
      exact ⟨a, by simp [ha], hP⟩

theorem forall2_sublist_flatten {α : Type} :
    ∀ (l1 l2 : List (List α)), List.Forall₂ (fun r o => o.Sublist r) l1 l2 →
    l2.flatten.Sublist l1.flatten := by
  intro l1 l2 hf
  induction hf with
  | nil => exact List.Sublist.refl _
  | cons hab hf2 ih =>
    simp only [List.flatten_cons]
    exact List.Sublist.append hab ih

theorem filter_ne_nil_flatten {α : Type} [DecidableEq α]
    (os : List (List α)) :
    ((os.filter fun o => o ≠ []).flatten : List α) = os.flatten := by
  induction os with
  | nil => rfl
  | cons o os ih =>
    rw [List.filter_cons]
    by_cases ho : o = []
    · rw [if_neg (by simp [ho]), ih, ho, List.flatten_cons, List.nil_append]
    · rw [if_pos (by simp [ho]), List.flatten_cons, List.flatten_cons, ih]

theorem combRuns_forall2 (mmtol : ℤ) :
    ∀ (runs : List (List (List Nat))) (out : List (List Nat)),
    combRuns mmtol runs = some out →
    ∃ os, List.Forall₂ (fun r o => writebest mmtol r = some o) runs os ∧
      out = os.flatten := by
  intro runs
  induction runs with
  | nil =>
    intro out h
    cases h
    exact ⟨[], List.Forall₂.nil, rfl⟩
  | cons r rs ih =>
    intro out h
    rw [combRuns] at h
    rcases hw : writebest mmtol r with _ | o
    · rw [hw] at h
      exact absurd h (by simp)
    · rw [hw, Option.some_bind] at h
      rcases hc : combRuns mmtol rs with _ | os0
      · rw [hc] at h
        exact absurd h (by simp)
      · rw [hc] at h
        have hh := Option.some.inj h
        obtain ⟨os, hf, hout⟩ := ih os0 hc
        exact ⟨o :: os, List.Forall₂.cons hw hf, by rw [← hh, hout]; rfl⟩

theorem combRuns_self (mmtol : ℤ) :
    ∀ (os : List (List (List Nat))),
    (∀ o ∈ os, writebest mmtol o = some o) →
    combRuns mmtol os = some os.flatten := by
  intro os
  induction os with
  | nil =>
    intro _
    rfl
  | cons o os ih =>
    intro hall
    rw [combRuns, hall o (by simp), Option.some_bind,
      ih fun o2 h2 => hall o2 (by simp [h2])]
    rfl

theorem runsOf_flatten :
    ∀ (runs os : List (List (List Nat))),
    List.Forall₂ (fun r o => ∀ x ∈ o, keyD x = keyD r.headI) runs os →
    (runs.Pairwise fun r1 r2 => keyD r1.headI ≠ keyD r2.headI) →
    runsOf os.flatten = os.filter fun o => o ≠ [] := by
  intro runs os hf
  induction hf with
  | nil =>
    intro _
    rw [show (([] : List (List (List Nat))).flatten) = [] from rfl, runsOf]
    rfl
  | @cons r o runs2 os2 hro hf2 ih =>
    intro hpw
    obtain ⟨hhead, hpw2⟩ := List.pairwise_cons.mp hpw
    have hflat_ne : ∀ y ∈ os2.flatten, keyD y ≠ keyD r.headI := by
      intro y hy
      obtain ⟨r2, hr2, o2, hP2, hyo2⟩ :=
        forall2_flatten_mem _ runs2 os2 hf2 y hy
      rw [hP2 y hyo2]
      exact fun hk => (hhead r2 hr2) hk.symm
    cases o with
    | nil =>
      rw [show (([] : List (List Nat)) :: os2).flatten = os2.flatten by simp]
      rw [ih hpw2, List.filter_cons, if_neg (by simp)]
    | cons x o2 =>
      have hkx : keyD x = keyD r.headI := hro x (by simp)
      rw [show ((x :: o2) :: os2).flatten = x :: (o2 ++ os2.flatten) by simp]
      rw [runsOf]
      have hpred_o2 : ∀ y ∈ o2,
          (fun z => decide (keyD z = keyD x)) y = true := by
        intro y hy
        simp only [decide_eq_true_eq]
        rw [hro y (by simp [hy]), hkx]
      have hpred_flat : ∀ y ∈ os2.flatten,
          (fun z => decide (keyD z = keyD x)) y = false := by
        intro y hy
        simp only [decide_eq_false_iff_not]
        rw [hkx]
        exact hflat_ne y hy
      rw [takeWhile_append_all _ o2 os2.flatten hpred_o2,
        takeWhile_nil_of_all _ os2.flatten hpred_flat,
        dropWhile_append_all _ o2 os2.flatten hpred_o2,
        dropWhile_self_of_all _ os2.flatten hpred_flat,
        List.append_nil, ih hpw2, List.filter_cons, if_pos (by simp)]

theorem writebest_idem (mmtol : ℤ) (r o : List (List Nat))
    (h0 : 0 ≤ mmtol) (h : writebest mmtol r = some o) :
    writebest mmtol o = some o := by
  obtain ⟨ys, hys, ho⟩ := writebest_elim mmtol r o h
  by_cases hoe : o = []
  · rw [hoe]
    rfl
  · have hparse : ∀ p ∈ (r.zip ys).filter fun ly =>
        ((ly.2 : ℤ) ≤ computeBest ys + mmtol), nmissOf p.1 = some p.2 :=
      fun p hp => parseAll_zip_mem r ys hys p (List.mem_of_mem_filter hp)
    have hpo : parseAll o = some ((((r.zip ys).filter fun ly =>
        ((ly.2 : ℤ) ≤ computeBest ys + mmtol)).map Prod.snd)) := by
      rw [ho]
      exact parseAll_of_pairs _ hparse
    have hrne : r ≠ [] := by
      intro hnil
      rw [hnil] at h
      have : o = [] := (Option.some.inj h).symm
      exact hoe this
    have hysne : ys ≠ [] := by
      intro hnil
      rw [hnil] at hys
      have := parseAll_length r [] hys
      simp at this
      exact hrne (List.length_eq_zero.mp this.symm)
    have hys2sub : ∀ y ∈ ((r.zip ys).filter fun ly =>
        ((ly.2 : ℤ) ≤ computeBest ys + mmtol)).map Prod.snd, y ∈ ys := by
      intro y hy
      obtain ⟨p, hp, hpy⟩ := List.mem_map.mp hy
      have hz := List.mem_of_mem_filter hp
      have := (List.of_mem_zip hz).2
      rw [← hpy]
      exact this
    obtain ⟨⟨yb, hyb_in, hyb⟩, hmin⟩ := computeBest_spec ys hysne
    have hsnd : (r.zip ys).map Prod.snd = ys :=
      List.map_snd_zip r ys (le_of_eq (parseAll_length r ys hys))
    have hyb_zip : yb ∈ (r.zip ys).map Prod.snd := by
      rw [hsnd]
      exact hyb_in
    obtain ⟨pb, hpb, hpb2⟩ := List.mem_map.mp hyb_zip
    have hpb_kept : pb ∈ (r.zip ys).filter fun ly =>
        ((ly.2 : ℤ) ≤ computeBest ys + mmtol) := by
      apply List.mem_filter.mpr
      refine ⟨hpb, ?_⟩
      simp only [decide_eq_true_eq]
      rw [hpb2, ← hyb]
      omega
    have hyb_in2 : yb ∈ ((r.zip ys).filter fun ly =>
        ((ly.2 : ℤ) ≤ computeBest ys + mmtol)).map Prod.snd :=
      List.mem_map.mpr ⟨pb, hpb_kept, hpb2⟩
    have hys2ne : (((r.zip ys).filter fun ly =>
        ((ly.2 : ℤ) ≤ computeBest ys + mmtol)).map Prod.snd) ≠ [] := by
      intro hnil
      rw [hnil] at hyb_in2
      simp at hyb_in2
    have hcb2 : computeBest (((r.zip ys).filter fun ly =>
        ((ly.2 : ℤ) ≤ computeBest ys + mmtol)).map Prod.snd) =
        computeBest ys := by
      obtain ⟨⟨y1, hy1in, hy1⟩, hmin2⟩ := computeBest_spec _ hys2ne
      have hle1 : computeBest ys ≤ computeBest (((r.zip ys).filter fun ly =>
          ((ly.2 : ℤ) ≤ computeBest ys + mmtol)).map Prod.snd) := by
        rw [hy1]
        exact hmin y1 (hys2sub y1 hy1in)
      have hle2 := hmin2 yb hyb_in2
      rw [← hyb] at hle2
      omega
    unfold writebest
    rw [hpo]
    simp only [Option.map_some']
    congr 1
    have hzip : o.zip (((r.zip ys).filter fun ly =>
        ((ly.2 : ℤ) ≤ computeBest ys + mmtol)).map Prod.snd) =
        ((r.zip ys).filter fun ly =>
          ((ly.2 : ℤ) ≤ computeBest ys + mmtol)) := by
      rw [ho, List.zip_map']
      simp
    rw [hzip, hcb2]
    have hkeep : ∀ p ∈ ((r.zip ys).filter fun ly =>
        ((ly.2 : ℤ) ≤ computeBest ys + mmtol)),
        (fun ly : List Nat × Nat =>
          decide ((ly.2 : ℤ) ≤ computeBest ys + mmtol)) p = true := by
      intro p hp
      exact (List.mem_filter.mp hp).2
    rw [List.filter_eq_self.mpr hkeep]
    exact ho.symm

/-- **C6**.  Consolidation idempotence: applying §4.8 (unique-sort
followed by the per-read min-mismatch filter) to its own output yields
the identical stream; the second pass removes nothing because each
group's minimum-mismatch record is always retained. -/
theorem c6_consolidation_idem (mmtol : ℤ) (ls out : List (List Nat))
    (h0 : 0 ≤ mmtol)
    (hwf : ∀ l ∈ sortUniq ls, (keyOf l).isSome)
    (hgrp : contigKeys (sortUniq ls) = true)
    (h : consolidate mmtol ls = some out) :
    consolidate mmtol out = some out := by
  unfold consolidate at h
  rw [combineStream_eq_combRuns mmtol _ hwf] at h
  obtain ⟨os, hf2, hout⟩ := combRuns_forall2 mmtol _ out h
  have hfsub : List.Forall₂ (fun r o => o.Sublist r)
      (runsOf (sortUniq ls)) os :=
    forall2_strengthen _ _ _ _ hf2 fun r _ o hP =>
      writebest_sublist mmtol r o hP
  have hflat : (runsOf (sortUniq ls)).flatten = sortUniq ls :=
    runsOf_join (sortUniq ls).length (sortUniq ls) (le_refl _)
  have hsubl : out.Sublist (sortUniq ls) := by
    rw [hout, ← hflat]
    exact forall2_sublist_flatten _ _ hfsub
  have hsorted : List.Sorted LexLe out :=
    List.Pairwise.sublist hsubl (sortUniq_sorted ls)
  have hnodup : out.Nodup := List.Nodup.sublist hsubl (sortUniq_nodup ls)
  have hsu_out : sortUniq out = out := sortUniq_eq_self out hsorted hnodup
  have hwf_out : ∀ l ∈ out, (keyOf l).isSome := fun l hl =>
    hwf l (hsubl.subset hl)
  have hf3 : List.Forall₂ (fun r o => ∀ x ∈ o, keyD x = keyD r.headI)
      (runsOf (sortUniq ls)) os := by
    refine forall2_strengthen _ _ _ _ hf2 ?_
    intro r hr o hP x hx
    have hxr : x ∈ r := (writebest_sublist mmtol r o hP).subset hx
    exact runsOf_uniform (sortUniq ls).length (sortUniq ls) (le_refl _)
      r hr x hxr
  have hpw := contig_runs_pairwise (sortUniq ls).length (sortUniq ls)
    (le_refl _) hgrp
  have hrout : runsOf out = os.filter fun o => o ≠ [] := by
    rw [hout]
    exact runsOf_flatten _ os hf3 hpw
  have hidem : ∀ o ∈ os, writebest mmtol o = some o := by
    intro o hos
    obtain ⟨r, _, hP⟩ := forall2_mem_right _ _ _ hf2 o hos
    exact writebest_idem mmtol r o h0 hP
  unfold consolidate
  rw [hsu_out, combineStream_eq_combRuns mmtol out hwf_out, hrout]
  rw [combRuns_self mmtol _ fun o hos => hidem o (List.mem_of_mem_filter hos)]
  rw [filter_ne_nil_flatten, ← hout]

/-- Witness for C6 on a concrete two-line stream with `MMTol = 0`. -/
theorem c6_consolidation_idem_witness :
    consolidate 0 [c5line1] = some [c5line1] :=
  c6_consolidation_idem 0 [c5line2, c5line1] [c5line1] (by norm_num)
    (by decide)
    (by
      have hsu : sortUniq [c5line2, c5line1] = [c5line1, c5line2] := by
        decide
      rw [hsu]
      simp [contigKeys, keyD, keyOf, fieldsWS, isSpace, c5line1, c5line2])
    (by decide)

theorem truncPrep_le (names : List (List Nat)) :
    (truncPrep names).length ≤ 1000 := by
  unfold truncPrep
  by_cases h : (joinNames names).length > 1000
  · rw [if_pos h]
    simp only [List.length_append, List.length_take, List.length_cons,
      List.length_nil]
    omega
  · rw [if_neg h]
    omega

theorem truncUniq_le (names : List (List Nat)) :
    (truncUniq names).length ≤ 1000 := by
  unfold truncUniq
  by_cases h : (joinNames names).length > 1000
  · rw [if_pos h]
    simp only [List.length_append, List.length_take, List.length_cons,
      List.length_nil]
    omega
  · rw [if_neg h]
    omega

theorem prepLoop_spec : ∀ (rest : List (List Nat × List Nat))
    (cur : List Nat) (names : List (List Nat)) (n : Nat),
    contigVals (cur :: rest.map Prod.fst) = true →
    ((prepLoop cur names n rest).map ReadRec.seq).Nodup ∧
    (∀ s, s ∈ (prepLoop cur names n rest).map ReadRec.seq ↔
      (s = cur ∨ s ∈ rest.map Prod.fst)) ∧
    (∀ rec ∈ prepLoop cur names n rest,
      rec.mult = if rec.seq = cur then n + (rest.map Prod.fst).count cur
        else (rest.map Prod.fst).count rec.seq) ∧
    (∀ rec ∈ prepLoop cur names n rest, rec.names.length ≤ 1000) := by
  intro rest
  induction rest with
  | nil =>
    intro cur names n _
    refine ⟨by simp [prepLoop], ?_, ?_, ?_⟩
    · intro s
      simp [prepLoop]
    · intro rec hrec
      simp only [prepLoop, List.mem_singleton] at hrec
      rw [hrec]
      simp
    · intro rec hrec
      simp only [prepLoop, List.mem_singleton] at hrec
      rw [hrec]
      exact truncPrep_le names
  | cons p rest ih =>
    obtain ⟨seq1, name1⟩ := p
    intro cur names n hgrp
    simp only [List.map_cons] at hgrp
    by_cases hsc : seq1 = cur
    · subst hsc
      rw [prepLoop, if_pos rfl]
      have hdw : List.dropWhile (fun x => decide (x = seq1))
          (seq1 :: rest.map Prod.fst) =
          List.dropWhile (fun x => decide (x = seq1))
            (rest.map Prod.fst) := by
        rw [List.dropWhile_cons, if_pos (by simp)]
      have hgrp2 : contigVals (seq1 :: rest.map Prod.fst) = true := by
        rw [contigVals]
        rw [contigVals, hdw] at hgrp
        exact hgrp
      obtain ⟨h1, h2, h3, h4⟩ := ih seq1 (names ++ [name1]) (n + 1) hgrp2
      refine ⟨h1, ?_, ?_, h4⟩
      · intro s
        rw [h2 s]
        simp only [List.map_cons, List.mem_cons]
        tauto
      · intro rec hrec
        have hmt := h3 rec hrec
        by_cases hq : rec.seq = seq1
        · rw [if_pos hq] at hmt ⊢
          rw [hmt]
          simp only [List.map_cons, List.count_cons_self]
          omega
        · rw [if_neg hq] at hmt ⊢
          rw [hmt]
          simp only [List.map_cons]
          rw [List.count_cons_of_ne hq]
    · rw [prepLoop, if_neg hsc]
      have hdw2 : List.dropWhile (fun x => decide (x = cur))
          (seq1 :: rest.map Prod.fst) = seq1 :: rest.map Prod.fst := by
        rw [List.dropWhile_cons, if_neg (by simp [hsc])]
      rw [contigVals, hdw2] at hgrp
      simp only [Bool.and_eq_true, decide_eq_true_eq] at hgrp
      obtain ⟨hall, hrec0⟩ := hgrp
      obtain ⟨h1, h2, h3, h4⟩ := ih seq1 [name1] 1 hrec0
      have hcur_not : cur ∉ (prepLoop seq1 [name1] 1 rest).map ReadRec.seq := by
        intro hin
        rcases (h2 cur).mp hin with hc | hc
        · exact hsc hc.symm
        · exact (hall cur (by simp [hc])) rfl
      refine ⟨?_, ?_, ?_, ?_⟩
      · simp only [List.map_cons]
        exact List.nodup_cons.mpr ⟨hcur_not, h1⟩
      · intro s
        simp only [List.map_cons, List.mem_cons]
        rw [h2 s]
      · intro rec hrec2
        rcases List.mem_cons.mp hrec2 with hh | hh
        · rw [hh]
          rw [if_pos rfl]
          have hzero : (List.map Prod.fst ((seq1, name1) :: rest)).count cur
              = 0 := by
            apply List.count_eq_zero.mpr
            intro hin
            simp only [List.map_cons] at hin
            exact (hall cur hin) rfl
          rw [hzero]
          rfl
        · have hmt := h3 rec hh
          by_cases hq : rec.seq = seq1
          · rw [if_pos hq] at hmt
            have hqc : rec.seq ≠ cur := by
              rw [hq]
              exact hsc
            rw [if_neg hqc, hmt]
            simp only [List.map_cons]
            rw [hq, List.count_cons_self]
            omega
          · rw [if_neg hq] at hmt
            have hqc : rec.seq ≠ cur := by
              intro hcc
              have hmem : rec.seq ∈
                  (prepLoop seq1 [name1] 1 rest).map ReadRec.seq :=
                List.mem_map.mpr ⟨rec, hh, rfl⟩
              rw [hcc] at hmem
              exact hcur_not hmem
            rw [if_neg hqc, hmt]
            simp only [List.map_cons]
            rw [List.count_cons_of_ne hq]
      · intro rec hrec2
        rcases List.mem_cons.mp hrec2 with hh | hh
        · rw [hh]
          exact truncPrep_le names
        · exact h4 rec hh

/-- **C7**.  Dedup correctness: over a sorted (sequence, name) stream,
every distinct input sequence appears in exactly one output record,
that record's multiplicity is the number of input occurrences of the
sequence, and the rendered name-list field never exceeds 1000 bytes
(in both the `prepReads` and the `muscato_uniqify` truncation). -/
theorem c7_dedup_correct (ls : List (List Nat × List Nat))
    (out : List ReadRec)
    (hgrp : contigVals (ls.map Prod.fst) = true)
    (h : prepReads ls = some out) :
    ((out.map ReadRec.seq).Nodup ∧
      ∀ s, s ∈ ls.map Prod.fst ↔ s ∈ out.map ReadRec.seq) ∧
    (∀ rec ∈ out, rec.mult = (ls.map Prod.fst).count rec.seq) ∧
    (∀ rec ∈ out, rec.names.length ≤ 1000) ∧
    (∀ names, (truncUniq names).length ≤ 1000) := by
  cases ls with
  | nil => exact absurd h (by simp [prepReads])
  | cons p rest =>
    obtain ⟨seq0, name0⟩ := p
    have hout : out = prepLoop seq0 [name0] 1 rest := by
      rw [prepReads] at h
      exact (Option.some.inj h).symm
    subst hout
    simp only [List.map_cons] at hgrp
    obtain ⟨h1, h2, h3, h4⟩ := prepLoop_spec rest seq0 [name0] 1 hgrp
    refine ⟨⟨h1, ?_⟩, ?_, h4, truncUniq_le⟩
    · intro s
      simp only [List.map_cons, List.mem_cons]
      rw [h2 s]
    · intro rec hrec
      have hmt := h3 rec hrec
      by_cases hq : rec.seq = seq0
      · rw [if_pos hq] at hmt
        rw [hmt]
        simp only [List.map_cons]
        rw [hq, List.count_cons_self]
        omega
      · rw [if_neg hq] at hmt
        rw [hmt]
        simp only [List.map_cons]
        rw [List.count_cons_of_ne hq]

/-- Witness for C7 on the concrete sorted stream
`(A, a), (A, b), (B, c)`. -/
theorem c7_dedup_correct_witness :
    (((prepLoop [65] [[97]] 1 [([65], [98]), ([66], [99])]).map
        ReadRec.seq).Nodup ∧
      ∀ s, s ∈ ([([65], [97]), ([65], [98]), ([66], [99])] :
          List (List Nat × List Nat)).map Prod.fst ↔
        s ∈ (prepLoop [65] [[97]] 1 [([65], [98]), ([66], [99])]).map
          ReadRec.seq) ∧
    (∀ rec ∈ prepLoop [65] [[97]] 1 [([65], [98]), ([66], [99])],
      rec.mult = (([([65], [97]), ([65], [98]), ([66], [99])] :
        List (List Nat × List Nat)).map Prod.fst).count rec.seq) ∧
    (∀ rec ∈ prepLoop [65] [[97]] 1 [([65], [98]), ([66], [99])],
      rec.names.length ≤ 1000) ∧
    (∀ names, (truncUniq names).length ≤ 1000) :=
  c7_dedup_correct [([65], [97]), ([65], [98]), ([66], [99])]
    (prepLoop [65] [[97]] 1 [([65], [98]), ([66], [99])])
    (by simp [contigVals]) rfl

theorem uniqLoop_fst : ∀ (rest : List (List Nat × List Nat))
    (cur : List Nat) (nseq nunq : Nat),
    (uniqLoop cur nseq nunq rest).1 = nseq + rest.length := by
  intro rest
  induction rest with
  | nil =>
    intro cur nseq nunq
    simp [uniqLoop]
  | cons p rest ih =>
    intro cur nseq nunq
    obtain ⟨s1, n1⟩ := p
    rw [uniqLoop]
    by_cases hq : s1 ≠ cur
    · rw [if_pos hq, ih]
      simp only [List.length_cons]
      omega
    · rw [if_neg hq, ih]
      simp only [List.length_cons]
      omega

/-- **C9** (refuting the total count).  The side record's `NumTotal`
equals the number of input records minus one for every non-empty
input: the pre-read first line is never counted.  On a one-record
input the pair written is `(NumTotal, NumUnique) = (0, 1)` although
the stream holds 1 record. -/
theorem c9_seq_count_off_by_one :
    (∀ (p : List Nat × List Nat) (rest : List (List Nat × List Nat)),
      (uniqCounts (p :: rest)).map Prod.fst = some rest.length) ∧
    uniqCounts [([65], [114])] = some (0, 1) ∧
    (0 : Nat) ≠ ([([65], [114])] : List (List Nat × List Nat)).length := by
  refine ⟨?_, by decide, by decide⟩
  intro p rest
  obtain ⟨s0, n0⟩ := p
  unfold uniqCounts
  simp [uniqLoop_fst]
